import Mathlib

/-!
Verification of the `metro_sampler` MSA sampling pipeline.

The definitions below are a shallow embedding of the Python sources
`metro_sampler/sampler.py`, `metro_sampler/config.py` and
`metro_sampler/data_ntd.py`.  DataFrames become lists of records, the
pseudo-random draw of `DataFrame.sample` becomes an abstract draw
function constrained to pick a sub-multiset of its pool, and float
arithmetic becomes exact rational arithmetic.
-/

namespace MetroSampler

/-! ## Configuration constants (metro_sampler/config.py) -/

def TARGET_SAMPLE_SIZE : Nat := 50

def MIN_SAMPLE_SIZE : Nat := 45

def MAX_SAMPLE_SIZE : Nat := 52

def TOP_N_MANDATORY : Nat := 10

/-- MIN_POPULATION_COVERAGE = 0.5, as an exact rational. -/
def MIN_POPULATION_COVERAGE : ℚ := 1/2

/-! ## Regions and strata (`assign_strata` in sampler.py)

A `Region` is one row of the stratified MSA DataFrame, restricted to the
columns `select_sample` reads. -/

structure Region where
  cbsa_code : String
  population : Nat
  has_rail : Bool
  has_shared_mobility : Bool
  census_region : String
deriving DecidableEq, Repr

/-- The `_pop_stratum` helper: iterate the `POP_STRATA` dict in insertion
order (Mega, Large, Medium, Small), return the first bucket with
`lo <= pop < hi`, fall back to `"Small"`. -/
def popStratum (pop : Nat) : String :=
  if 5000000 ≤ pop then "Mega"
  else if 1000000 ≤ pop ∧ pop < 5000000 then "Large"
  else if 500000 ≤ pop ∧ pop < 1000000 then "Medium"
  else if pop < 500000 then "Small"
  else "Small"

def railStratum (b : Bool) : String := if b then "Rail" else "NoRail"

def smStratum (b : Bool) : String := if b then "SM" else "NoSM"

/-- The composite stratum key built by `assign_strata`:
`pop_stratum + "_" + rail_stratum + "_" + sm_stratum + "_" + census_region`.
`assign_strata` adds it as a column; here it is the same pure function of
the row's attributes. -/
def stratumOf (r : Region) : String :=
  popStratum r.population ++ "_" ++ railStratum r.has_rail ++ "_" ++
    smStratum r.has_shared_mobility ++ "_" ++ r.census_region

/-! ## value_counts -/

/-- Distinct keys of a list in order of first appearance
(`seen` accumulates the keys already emitted). -/
def distinctKeysAux (seen : List String) : List String → List String
  | [] => []
  | k :: rest =>
    if k ∈ seen then distinctKeysAux seen rest
    else k :: distinctKeysAux (k :: seen) rest

def distinctKeys (l : List String) : List String := distinctKeysAux [] l

/-- Comparison used to sort value counts descending. -/
def cntGe (a b : String × Nat) : Prop := b.2 ≤ a.2

instance : DecidableRel cntGe := fun a b => Nat.decLe b.2 a.2

/-- `Series.value_counts().to_dict()`: each distinct key with its number of
occurrences, sorted by count descending.  (pandas does not fix the order
among keys with equal counts; nothing below depends on that order.) -/
def valueCounts (l : List String) : List (String × Nat) :=
  List.insertionSort cntGe ((distinctKeys l).map (fun k => (k, l.count k)))

/-! ## Allocation (lines 76–109 of sampler.py)

The Python code keeps two dicts with the same keys, `stratum_counts` and
`allocation`; we fuse them into one list of entries. -/

structure StratumEntry where
  key : String
  count : Nat
  alloc : Nat
deriving DecidableEq, Repr

/-- Python's built-in `round`: round half to even (banker's rounding). -/
def pythonRound (q : ℚ) : ℤ :=
  let f := ⌊q⌋
  if q - f < 1/2 then f
  else if (1 : ℚ)/2 < q - f then f + 1
  else if f % 2 = 0 then f else f + 1

/-- Initial proportional allocation (lines 77–84):
`raw = round(slots_left * count / n_remaining)`, floored at 1 when
`n_strata <= slots_left`, then `allocation[s] = min(count, max(0, raw))`. -/
def initAlloc (slots nRem : Nat) (counts : List (String × Nat)) : List StratumEntry :=
  let nStrata := counts.length
  counts.map (fun sc =>
    let raw : ℤ := pythonRound ((slots : ℚ) * (sc.2 : ℚ) / (nRem : ℚ))
    let raw' : ℤ := if nStrata ≤ slots then max 1 raw else raw
    { key := sc.1, count := sc.2, alloc := min sc.2 (max 0 raw').toNat })

def sumAlloc (es : List StratumEntry) : Nat := (es.map (·.alloc)).sum

/-- Dict access `allocation[s]` (keys are distinct in every use). -/
def allocOf : List StratumEntry → String → Nat
  | [], _ => 0
  | e :: rest, k => if e.key = k then e.alloc else allocOf rest k

/-- Dict access `stratum_counts[s]`. -/
def countOf : List StratumEntry → String → Nat
  | [], _ => 0
  | e :: rest, k => if e.key = k then e.count else countOf rest k

/-- `allocation[s] -= 1`. -/
def decKey : List StratumEntry → String → List StratumEntry
  | [], _ => []
  | e :: rest, k =>
    if e.key = k then { e with alloc := e.alloc - 1 } :: rest
    else e :: decKey rest k

/-- `allocation[s] += 1`. -/
def incKey : List StratumEntry → String → List StratumEntry
  | [], _ => []
  | e :: rest, k =>
    if e.key = k then { e with alloc := e.alloc + 1 } :: rest
    else e :: incKey rest k

/-- One candidate of the over-allocation branch (lines 94–96):
`if allocation[s] > 0 and sum(allocation.values()) > slots_left:
allocation[s] -= 1`. -/
def decStep (slots : Nat) (es : List StratumEntry) (k : String) : List StratumEntry :=
  if 0 < allocOf es k ∧ slots < sumAlloc es then decKey es k else es

/-- Sort key for `sorted(allocation, key=lambda s: allocation[s], reverse=True)`. -/
def allocGe (a b : StratumEntry) : Prop := b.alloc ≤ a.alloc

instance : DecidableRel allocGe := fun a b => Nat.decLe b.alloc a.alloc

/-- Sort key for the under-allocation candidates (room, largest first). -/
def roomGe (a b : StratumEntry) : Prop := b.count - b.alloc ≤ a.count - a.alloc

instance : DecidableRel roomGe := fun a b => Nat.decLe _ _

/-- The over-allocation pass (lines 92–96): walk the strata sorted by
current allocation, largest first, decrementing while the sum still
exceeds `slots_left`. -/
def decPass (slots : Nat) (es : List StratumEntry) : List StratumEntry :=
  ((List.insertionSort allocGe es).map (·.key)).foldl (decStep slots) es

/-- Candidates of the under-allocation branch (lines 99–103): strata with
`allocation[s] < stratum_counts[s]`, sorted by room, largest first. -/
def roomCandidates (es : List StratumEntry) : List StratumEntry :=
  List.insertionSort roomGe (es.filter (fun e => e.alloc < e.count))

/-- One candidate of the under-allocation branch (lines 106–109).  Python
breaks out of the candidate loop once `sum >= slots_left`; the sum never
decreases during the pass, so skipping the remaining candidates is the
same as breaking. -/
def incStep (slots : Nat) (es : List StratumEntry) (k : String) : List StratumEntry :=
  if slots ≤ sumAlloc es then es else incKey es k

def incPass (slots : Nat) (es : List StratumEntry) : List StratumEntry :=
  ((roomCandidates es).map (·.key)).foldl (incStep slots) es

/-- The bounded rebalancing loop (lines 87–109), `for _ in range(100)`:
stop when the sum matches `slots_left`; otherwise run the over- or
under-allocation pass; break early when no stratum has room. -/
def rebalance : Nat → Nat → List StratumEntry → List StratumEntry
  | 0, _, es => es
  | fuel + 1, slots, es =>
    if sumAlloc es = slots then es
    else if slots < sumAlloc es then rebalance fuel slots (decPass slots es)
    else if roomCandidates es = [] then es
    else rebalance fuel slots (incPass slots es)

/-! ## The staged sampling pipeline (`select_sample`) -/

/-- Line 64: `mandatory = df.head(TOP_N_MANDATORY)`.  Note: the frame is
*not* sorted here; `select_sample` takes the first rows in input order. -/
def mandatoryRegions (u : List Region) : List Region := u.take TOP_N_MANDATORY

/-- Line 68: `remaining_pool = df.iloc[TOP_N_MANDATORY:]`. -/
def remainingPool (u : List Region) : List Region := u.drop TOP_N_MANDATORY

/-- Line 69: `slots_left = TARGET_SAMPLE_SIZE - len(mandatory)`. -/
def slotsLeft (u : List Region) : Nat := TARGET_SAMPLE_SIZE - (mandatoryRegions u).length

/-- Line 73: `stratum_counts = remaining_pool["stratum"].value_counts().to_dict()`. -/
def stratumCounts (u : List Region) : List (String × Nat) :=
  valueCounts ((remainingPool u).map stratumOf)

/-- The per-stratum allocation after the rebalancing loop (lines 76–109). -/
def finalAlloc (u : List Region) : List StratumEntry :=
  rebalance 100 (slotsLeft u)
    (initAlloc (slotsLeft u) (remainingPool u).length (stratumCounts u))

/-- Abstract model of `pool.sample(n=n, random_state=seed)`: a function
from the seed, the pool and the requested size to the drawn rows. -/
def DrawFn : Type := Nat → List Region → Nat → List Region

/-- Contract of a without-replacement draw: the result is a sub-multiset
of the pool (each pool row is drawn at most once). -/
def DrawOk (draw : DrawFn) : Prop :=
  ∀ seed pool n, (draw seed pool n).Subperm pool

/-- Lines 111–117: for each stratum of the allocation dict in order, filter
its pool out of the remaining pool, cap `n_pick` at the pool size and, when
positive, draw with a fresh integer from the shared rng stream.  `stream k`
models the value of the (k+1)-th call of `rng.integers(1e9)`; the counter
advances only when a draw actually happens, exactly as in the source. -/
def drawStrata (draw : DrawFn) (stream : Nat → Nat) (pool : List Region) :
    List StratumEntry → Nat → List Region
  | [], _ => []
  | e :: rest, k =>
    let p := pool.filter (fun r => stratumOf r = e.key)
    let n := min e.alloc p.length
    if 0 < n then draw (stream k) p n ++ drawStrata draw stream pool rest (k + 1)
    else drawStrata draw stream pool rest k

/-- A region together with its `selection_method` column. -/
structure Tagged where
  region : Region
  method : String
deriving DecidableEq, Repr

/-- Lines 63–126: mandatory head tagged `"mandatory_top10"` concatenated
with the stratified draws tagged `"stratified_random"`. -/
def combined (draw : DrawFn) (stream : Nat → Nat) (u : List Region) : List Tagged :=
  (mandatoryRegions u).map (fun r => ⟨r, "mandatory_top10"⟩) ++
    (drawStrata draw stream (remainingPool u) (finalAlloc u) 0).map
      (fun r => ⟨r, "stratified_random"⟩)

def totalPop (u : List Region) : Nat := (u.map (·.population)).sum

def samplePop (s : List Tagged) : Nat := (s.map (·.region.population)).sum

/-- `pop_coverage = sample["population"].sum() / total_pop` as an exact
rational. -/
def coverage (s : List Tagged) (tp : Nat) : ℚ := (samplePop s : ℚ) / (tp : ℚ)

/-- Sort key for `sort_values("population", ascending=False)`. -/
def popGe (a b : Region) : Prop := b.population ≤ a.population

instance : DecidableRel popGe := fun a b => Nat.decLe _ _

/-- Lines 133–134: regions whose `cbsa_code` is not in the sample, sorted
descending by population. -/
def neededList (u : List Region) (s : List Tagged) : List Region :=
  List.insertionSort popGe
    (u.filter (fun r => !((s.map (·.region.cbsa_code)).contains r.cbsa_code)))

/-- Lines 135–142: append rows tagged `"coverage_boost"` until the sample
reaches `MAX_SAMPLE_SIZE` (checked before each addition) or coverage
reaches the target (checked after each addition). -/
def topUpLoop (tp : Nat) : List Tagged → List Region → List Tagged
  | s, [] => s
  | s, r :: rest =>
    if MAX_SAMPLE_SIZE ≤ s.length then s
    else
      let s' := s ++ [⟨r, "coverage_boost"⟩]
      if MIN_POPULATION_COVERAGE ≤ coverage s' tp then s'
      else topUpLoop tp s' rest

/-- Lines 128–142: run the top-up only when coverage is below target. -/
def afterTopUp (draw : DrawFn) (stream : Nat → Nat) (u : List Region) : List Tagged :=
  let s := combined draw stream u
  if coverage s (totalPop u) < MIN_POPULATION_COVERAGE then
    topUpLoop (totalPop u) s (neededList u s)
  else s

/-- A row of the final sample frame: region, `selection_method` and
`sample_weight`. -/
structure SampleRec where
  region : Region
  method : String
  weight : ℚ
deriving DecidableEq, Repr

/-- Number of rows of `l` in stratum `s`; `value_counts().to_dict()`
lookup. -/
def stratumCountIn (s : String) (l : List Region) : Nat :=
  (l.filter (fun r => stratumOf r = s)).length

/-- `d.get(s, 1)` on a count dict. -/
def countOr1 (n : Nat) : Nat := if n = 0 then 1 else n

/-- Lines 147–151: `stratum_N.get(s, 1) / stratum_n.get(s, 1)`. -/
def weightOf (u sampleRegs : List Region) (r : Region) : ℚ :=
  (countOr1 (stratumCountIn (stratumOf r) u) : ℚ) /
    (countOr1 (stratumCountIn (stratumOf r) sampleRegs) : ℚ)

/-- Lines 144–153: per-stratum weights, then the mandatory override
`sample_weight = 1.0` for `selection_method == "mandatory_top10"`. -/
def withWeights (u : List Region) (s : List Tagged) : List SampleRec :=
  s.map (fun t =>
    { region := t.region, method := t.method,
      weight :=
        if t.method = "mandatory_top10" then 1
        else weightOf u (s.map (·.region)) t.region })

/-- Sort key for the final `sort_values("population", ascending=False)`. -/
def popGeRec (a b : SampleRec) : Prop := b.region.population ≤ a.region.population

instance : DecidableRel popGeRec := fun a b => Nat.decLe _ _

/-- The whole of `select_sample` (lines 58–158), parameterised by the
abstract pseudo-random draw and the rng stream. -/
def selectSample (draw : DrawFn) (stream : Nat → Nat) (u : List Region) : List SampleRec :=
  List.insertionSort popGeRec (withWeights u (afterTopUp draw stream u))

/-- Regions of the sample just before the weight step. -/
def sampleRegions (draw : DrawFn) (stream : Nat → Nat) (u : List Region) : List Region :=
  (afterTopUp draw stream u).map (·.region)

/-! ## Lemmas: entry-list primitives -/

def keysOf (es : List StratumEntry) : List String := es.map (·.key)

/-- Every stratum's allocation stays within its population count. -/
def Bounded (es : List StratumEntry) : Prop := ∀ e ∈ es, e.alloc ≤ e.count

lemma keysOf_decKey (es : List StratumEntry) (k : String) :
    keysOf (decKey es k) = keysOf es := by
  induction es with
  | nil => rfl
  | cons e rest ih =>
    simp only [decKey, keysOf]
    split <;> simp_all [keysOf]

lemma keysOf_incKey (es : List StratumEntry) (k : String) :
    keysOf (incKey es k) = keysOf es := by
  induction es with
  | nil => rfl
  | cons e rest ih =>
    simp only [incKey, keysOf]
    split <;> simp_all [keysOf]

lemma mem_decKey {a : StratumEntry} {es : List StratumEntry} {k : String}
    (h : a ∈ decKey es k) :
    a ∈ es ∨ ∃ e ∈ es, a = { e with alloc := e.alloc - 1 } := by
  induction es with
  | nil => simp [decKey] at h
  | cons e rest ih =>
    simp only [decKey] at h
    split at h
    · rcases List.mem_cons.mp h with h' | h'
      · exact Or.inr ⟨e, List.mem_cons_self .., h'⟩
      · exact Or.inl (List.mem_cons_of_mem _ h')
    · rcases List.mem_cons.mp h with h' | h'
      · exact Or.inl (h' ▸ List.mem_cons_self ..)
      · rcases ih h' with h'' | ⟨e', he', rfl⟩
        · exact Or.inl (List.mem_cons_of_mem _ h'')
        · exact Or.inr ⟨e', List.mem_cons_of_mem _ he', rfl⟩

lemma mem_incKey {a : StratumEntry} {es : List StratumEntry} {k : String}
    (h : a ∈ incKey es k) :
    a ∈ es ∨ ∃ e ∈ es, e.key = k ∧ a = { e with alloc := e.alloc + 1 } := by
  induction es with
  | nil => simp [incKey] at h
  | cons e rest ih =>
    simp only [incKey] at h
    split at h
    · rcases List.mem_cons.mp h with h' | h'
      · exact Or.inr ⟨e, List.mem_cons_self .., by assumption, h'⟩
      · exact Or.inl (List.mem_cons_of_mem _ h')
    · rcases List.mem_cons.mp h with h' | h'
      · exact Or.inl (h' ▸ List.mem_cons_self ..)
      · rcases ih h' with h'' | ⟨e', he', hk, rfl⟩
        · exact Or.inl (List.mem_cons_of_mem _ h'')
        · exact Or.inr ⟨e', List.mem_cons_of_mem _ he', hk, rfl⟩

lemma bounded_decKey {es : List StratumEntry} {k : String} (hb : Bounded es) :
    Bounded (decKey es k) := by
  intro a ha
  rcases mem_decKey ha with h | ⟨e, he, rfl⟩
  · exact hb a h
  · exact le_trans (Nat.sub_le _ _) (hb e he)

lemma sumAlloc_cons (e : StratumEntry) (es : List StratumEntry) :
    sumAlloc (e :: es) = e.alloc + sumAlloc es := by
  simp [sumAlloc]

lemma sumAlloc_decKey {es : List StratumEntry} {k : String}
    (h : 0 < allocOf es k) : sumAlloc (decKey es k) + 1 = sumAlloc es := by
  induction es with
  | nil => simp [allocOf] at h
  | cons e rest ih =>
    simp only [allocOf] at h
    simp only [decKey]
    split
    · next hk =>
      rw [if_pos hk] at h
      simp only [sumAlloc_cons]
      omega
    · next hk =>
      rw [if_neg hk] at h
      simp only [sumAlloc_cons, Nat.add_assoc, ih h]

lemma sumAlloc_decKey_le (es : List StratumEntry) (k : String) :
    sumAlloc (decKey es k) ≤ sumAlloc es := by
  induction es with
  | nil => simp [decKey]
  | cons e rest ih =>
    simp only [decKey]
    split <;> simp only [sumAlloc_cons] <;> omega

lemma sumAlloc_incKey_le (es : List StratumEntry) (k : String) :
    sumAlloc (incKey es k) ≤ sumAlloc es + 1 := by
  induction es with
  | nil => simp [incKey]
  | cons e rest ih =>
    simp only [incKey]
    split <;> simp only [sumAlloc_cons] <;> omega

lemma allocOf_eq_of_mem {es : List StratumEntry} {e : StratumEntry}
    (hnd : (keysOf es).Nodup) (he : e ∈ es) : allocOf es e.key = e.alloc := by
  induction es with
  | nil => simp at he
  | cons a rest ih =>
    simp only [keysOf, List.map_cons, List.nodup_cons] at hnd
    rcases List.mem_cons.mp he with rfl | h'
    · simp [allocOf]
    · simp only [allocOf]
      split
      · next hk =>
        exact absurd (hk ▸ List.mem_map_of_mem (·.key) h') hnd.1
      · exact ih hnd.2 h'

lemma countOf_eq_of_mem {es : List StratumEntry} {e : StratumEntry}
    (hnd : (keysOf es).Nodup) (he : e ∈ es) : countOf es e.key = e.count := by
  induction es with
  | nil => simp at he
  | cons a rest ih =>
    simp only [keysOf, List.map_cons, List.nodup_cons] at hnd
    rcases List.mem_cons.mp he with rfl | h'
    · simp [countOf]
    · simp only [countOf]
      split
      · next hk =>
        exact absurd (hk ▸ List.mem_map_of_mem (·.key) h') hnd.1
      · exact ih hnd.2 h'

lemma allocOf_incKey_ne {es : List StratumEntry} {k k' : String} (h : k' ≠ k) :
    allocOf (incKey es k) k' = allocOf es k' := by
  induction es with
  | nil => simp [incKey]
  | cons e rest ih =>
    simp only [incKey]
    split
    · next hk => simp only [allocOf, hk, if_neg (Ne.symm h)]
    · simp only [allocOf]
      split
      · rfl
      · exact ih

lemma countOf_incKey (es : List StratumEntry) (k k' : String) :
    countOf (incKey es k) k' = countOf es k' := by
  induction es with
  | nil => simp [incKey]
  | cons e rest ih =>
    simp only [incKey]
    split
    · next hk => simp only [countOf]
    · simp only [countOf]
      split
      · rfl
      · exact ih

/-! ## Lemmas: the over-allocation pass -/

lemma keysOf_decStep (slots : Nat) (es : List StratumEntry) (k : String) :
    keysOf (decStep slots es k) = keysOf es := by
  unfold decStep
  split
  · exact keysOf_decKey es k
  · rfl

lemma bounded_decStep {es : List StratumEntry} (slots : Nat) (k : String)
    (hb : Bounded es) : Bounded (decStep slots es k) := by
  unfold decStep
  split
  · exact bounded_decKey hb
  · exact hb

lemma sumAlloc_decStep_le (slots : Nat) (es : List StratumEntry) (k : String) :
    sumAlloc (decStep slots es k) ≤ sumAlloc es := by
  unfold decStep
  split
  · exact sumAlloc_decKey_le es k
  · exact le_rfl

lemma le_sumAlloc_decStep {es : List StratumEntry} {slots : Nat} (k : String)
    (h : slots ≤ sumAlloc es) : slots ≤ sumAlloc (decStep slots es k) := by
  unfold decStep
  split
  · next hc => have := sumAlloc_decKey hc.1; omega
  · exact h

lemma keysOf_decFold (slots : Nat) (ks : List String) (es : List StratumEntry) :
    keysOf (ks.foldl (decStep slots) es) = keysOf es := by
  induction ks generalizing es with
  | nil => rfl
  | cons k ks ih => simp only [List.foldl_cons, ih, keysOf_decStep]

lemma bounded_decFold (slots : Nat) (ks : List String) {es : List StratumEntry}
    (hb : Bounded es) : Bounded (ks.foldl (decStep slots) es) := by
  induction ks generalizing es with
  | nil => exact hb
  | cons k ks ih => exact ih (bounded_decStep slots k hb)

lemma sumAlloc_decFold_le (slots : Nat) (ks : List String) (es : List StratumEntry) :
    sumAlloc (ks.foldl (decStep slots) es) ≤ sumAlloc es := by
  induction ks generalizing es with
  | nil => exact le_rfl
  | cons k ks ih => exact le_trans (ih _) (sumAlloc_decStep_le slots es k)

lemma le_sumAlloc_decFold (slots : Nat) (ks : List String) {es : List StratumEntry}
    (h : slots ≤ sumAlloc es) : slots ≤ sumAlloc (ks.foldl (decStep slots) es) := by
  induction ks generalizing es with
  | nil => exact h
  | cons k ks ih => exact ih (le_sumAlloc_decStep k h)

lemma sumAlloc_decFold_lt (slots : Nat) {ks : List String} {es : List StratumEntry}
    (hex : ∃ k ∈ ks, 0 < allocOf es k) (hover : slots < sumAlloc es) :
    sumAlloc (ks.foldl (decStep slots) es) < sumAlloc es := by
  induction ks generalizing es with
  | nil => simp at hex
  | cons k ks ih =>
    rcases hex with ⟨k', hk', hpos⟩
    simp only [List.foldl_cons]
    by_cases hfire : 0 < allocOf es k ∧ slots < sumAlloc es
    · have hdec := sumAlloc_decKey hfire.1
      have hle := sumAlloc_decFold_le slots ks (decKey es k)
      simp only [decStep, if_pos hfire]
      omega
    · have hnot : allocOf es k = 0 := by
        rcases Nat.eq_zero_or_pos (allocOf es k) with h0 | h0
        · exact h0
        · exact absurd ⟨h0, hover⟩ hfire
      have hstep : decStep slots es k = es := by
        simp [decStep, hnot]
      rw [hstep]
      rcases List.mem_cons.mp hk' with rfl | hmem
      · rw [hnot] at hpos
        exact absurd hpos (lt_irrefl 0)
      · exact ih ⟨k', hmem, hpos⟩ hover

/-- A positive allocation sum comes from some entry with positive
allocation; with distinct keys that entry is reachable through its key. -/
lemma exists_key_pos {es : List StratumEntry} (hnd : (keysOf es).Nodup)
    (h : 0 < sumAlloc es) : ∃ k ∈ keysOf es, 0 < allocOf es k := by
  have : ∃ e ∈ es, 0 < e.alloc := by
    by_contra hall
    push_neg at hall
    have : sumAlloc es = 0 := by
      unfold sumAlloc
      rw [List.sum_eq_zero]
      intro x hx
      rcases List.mem_map.mp hx with ⟨e, he, rfl⟩
      exact Nat.le_zero.mp (hall e he)
    omega
  rcases this with ⟨e, he, hpos⟩
  exact ⟨e.key, List.mem_map_of_mem (·.key) he, (allocOf_eq_of_mem hnd he) ▸ hpos⟩

lemma keysOf_decPass (slots : Nat) (es : List StratumEntry) :
    keysOf (decPass slots es) = keysOf es := keysOf_decFold ..

lemma bounded_decPass (slots : Nat) {es : List StratumEntry} (hb : Bounded es) :
    Bounded (decPass slots es) := bounded_decFold slots _ hb

lemma le_sumAlloc_decPass {slots : Nat} {es : List StratumEntry}
    (h : slots ≤ sumAlloc es) : slots ≤ sumAlloc (decPass slots es) :=
  le_sumAlloc_decFold _ _ h

lemma sumAlloc_decPass_lt {slots : Nat} {es : List StratumEntry}
    (hnd : (keysOf es).Nodup) (hover : slots < sumAlloc es) :
    sumAlloc (decPass slots es) < sumAlloc es := by
  apply sumAlloc_decFold_lt slots _ hover
  rcases exists_key_pos hnd (Nat.zero_lt_of_lt hover) with ⟨k, hk, hpos⟩
  refine ⟨k, ?_, hpos⟩
  have hperm : List.Perm ((List.insertionSort allocGe es).map (fun e => e.key)) (keysOf es) :=
    (List.perm_insertionSort allocGe es).map _
  exact hperm.mem_iff.mpr hk

/-! ## Lemmas: the under-allocation pass -/

lemma keysOf_incStep (slots : Nat) (es : List StratumEntry) (k : String) :
    keysOf (incStep slots es k) = keysOf es := by
  unfold incStep
  split
  · rfl
  · exact keysOf_incKey es k

lemma keysOf_incFold (slots : Nat) (ks : List String) (es : List StratumEntry) :
    keysOf (ks.foldl (incStep slots) es) = keysOf es := by
  induction ks generalizing es with
  | nil => rfl
  | cons k ks ih => simp only [List.foldl_cons, ih, keysOf_incStep]

lemma sumAlloc_incFold_le {slots : Nat} (ks : List String) {es : List StratumEntry}
    (h : sumAlloc es ≤ slots) : sumAlloc (ks.foldl (incStep slots) es) ≤ slots := by
  induction ks generalizing es with
  | nil => exact h
  | cons k ks ih =>
    simp only [List.foldl_cons]
    by_cases hc : slots ≤ sumAlloc es
    · simp only [incStep, if_pos hc]
      exact ih h
    · have : sumAlloc (incStep slots es k) ≤ slots := by
        simp only [incStep, if_neg hc]
        have := sumAlloc_incKey_le es k
        omega
      exact ih this

lemma bounded_incFold {slots : Nat} {ks : List String} {es : List StratumEntry}
    (hnd : (keysOf es).Nodup) (hks : ks.Nodup)
    (hroom : ∀ k ∈ ks, allocOf es k < countOf es k) (hb : Bounded es) :
    Bounded (ks.foldl (incStep slots) es) := by
  induction ks generalizing es with
  | nil => exact hb
  | cons k ks ih =>
    simp only [List.nodup_cons] at hks
    simp only [List.foldl_cons]
    by_cases hc : slots ≤ sumAlloc es
    · simp only [incStep, if_pos hc]
      exact ih hnd hks.2 (fun k' hk' => hroom k' (List.mem_cons_of_mem _ hk')) hb
    · simp only [incStep, if_neg hc]
      have hnd' : (keysOf (incKey es k)).Nodup := (keysOf_incKey es k) ▸ hnd
      have hb' : Bounded (incKey es k) := by
        intro a ha
        rcases mem_incKey ha with h' | ⟨e, he, hk, rfl⟩
        · exact hb a h'
        · have h1 : allocOf es k = e.alloc := hk ▸ allocOf_eq_of_mem hnd he
          have h2 : countOf es k = e.count := hk ▸ countOf_eq_of_mem hnd he
          have := hroom k (List.mem_cons_self ..)
          simp only []
          omega
      have hroom' : ∀ k' ∈ ks, allocOf (incKey es k) k' < countOf (incKey es k) k' := by
        intro k' hk'
        have hne : k' ≠ k := fun h => hks.1 (h ▸ hk')
        rw [allocOf_incKey_ne hne, countOf_incKey]
        exact hroom k' (List.mem_cons_of_mem _ hk')
      exact ih hnd' hks.2 hroom' hb'

lemma keysOf_incPass (slots : Nat) (es : List StratumEntry) :
    keysOf (incPass slots es) = keysOf es := keysOf_incFold ..

lemma sumAlloc_incPass_le {slots : Nat} {es : List StratumEntry}
    (h : sumAlloc es ≤ slots) : sumAlloc (incPass slots es) ≤ slots :=
  sumAlloc_incFold_le _ h

lemma bounded_incPass {slots : Nat} {es : List StratumEntry}
    (hnd : (keysOf es).Nodup) (hb : Bounded es) : Bounded (incPass slots es) := by
  have hperm : List.Perm (roomCandidates es) (es.filter (fun e => e.alloc < e.count)) :=
    List.perm_insertionSort _ _
  apply bounded_incFold hnd ?_ ?_ hb
  · have hsub : ((es.filter (fun e => e.alloc < e.count)).map (fun e => e.key)).Sublist (keysOf es) :=
      (List.filter_sublist es).map _
    exact (hperm.map (fun e => e.key)).nodup_iff.mpr (hsub.nodup hnd)
  · intro k hk
    rcases List.mem_map.mp hk with ⟨e, he, rfl⟩
    have he' := hperm.mem_iff.mp he
    have hmem : e ∈ es := List.mem_of_mem_filter he'
    have hlt : e.alloc < e.count := by
      have := List.of_mem_filter he'
      exact of_decide_eq_true this
    rw [allocOf_eq_of_mem hnd hmem, countOf_eq_of_mem hnd hmem]
    exact hlt

/-! ## Lemmas: the rebalancing loop -/

lemma keysOf_rebalance (fuel slots : Nat) (es : List StratumEntry) :
    keysOf (rebalance fuel slots es) = keysOf es := by
  induction fuel generalizing es with
  | zero => rfl
  | succ fuel ih =>
    simp only [rebalance]
    split
    · rfl
    · split
      · rw [ih, keysOf_decPass]
      · split
        · rfl
        · rw [ih, keysOf_incPass]

lemma bounded_rebalance (fuel slots : Nat) {es : List StratumEntry}
    (hnd : (keysOf es).Nodup) (hb : Bounded es) :
    Bounded (rebalance fuel slots es) := by
  induction fuel generalizing es with
  | zero => exact hb
  | succ fuel ih =>
    simp only [rebalance]
    split
    · exact hb
    · split
      · exact ih ((keysOf_decPass slots es) ▸ hnd) (bounded_decPass slots hb)
      · split
        · exact hb
        · exact ih ((keysOf_incPass slots es) ▸ hnd) (bounded_incPass hnd hb)

lemma sumAlloc_rebalance_le (fuel slots : Nat) {es : List StratumEntry}
    (hnd : (keysOf es).Nodup) (h : sumAlloc es ≤ slots + fuel) :
    sumAlloc (rebalance fuel slots es) ≤ slots := by
  induction fuel generalizing es with
  | zero => simpa using h
  | succ fuel ih =>
    simp only [rebalance]
    split
    · next he => omega
    · split
      · next hover =>
        have hlt := sumAlloc_decPass_lt hnd hover
        exact ih ((keysOf_decPass slots es) ▸ hnd) (by omega)
      · next hnot =>
        split
        · omega
        · have hle : sumAlloc es ≤ slots := by omega
          exact ih ((keysOf_incPass slots es) ▸ hnd)
            (le_trans (sumAlloc_incPass_le hle) (Nat.le_add_right ..))

/-! ## Lemmas: value_counts -/

lemma distinctKeysAux_nodup (seen l : List String) :
    (distinctKeysAux seen l).Nodup ∧ ∀ k ∈ distinctKeysAux seen l, k ∉ seen := by
  induction l generalizing seen with
  | nil => simp [distinctKeysAux]
  | cons k rest ih =>
    simp only [distinctKeysAux]
    split
    · exact ih seen
    · next hk =>
      obtain ⟨h1, h2⟩ := ih (k :: seen)
      refine ⟨List.nodup_cons.mpr ⟨fun hmem => (h2 k hmem) (List.mem_cons_self ..), h1⟩, ?_⟩
      intro k' hk'
      rcases List.mem_cons.mp hk' with rfl | h'
      · exact hk
      · exact fun hs => (h2 k' h') (List.mem_cons_of_mem _ hs)

lemma mem_distinctKeysAux {l : List String} {x : String} (seen : List String)
    (hx : x ∈ l) (hs : x ∉ seen) : x ∈ distinctKeysAux seen l := by
  induction l generalizing seen with
  | nil => simp at hx
  | cons k rest ih =>
    simp only [distinctKeysAux]
    rcases List.mem_cons.mp hx with rfl | h'
    · split
      · next h => exact absurd h hs
      · exact List.mem_cons_self ..
    · split
      · exact ih seen h' hs
      · by_cases hxk : x = k
        · exact hxk ▸ List.mem_cons_self ..
        · refine List.mem_cons_of_mem _ (ih (k :: seen) h' ?_)
          simp only [List.mem_cons]
          exact fun hc => hc.elim hxk hs

lemma distinctKeys_nodup (l : List String) : (distinctKeys l).Nodup :=
  (distinctKeysAux_nodup [] l).1

lemma mem_distinctKeys {l : List String} {x : String} (hx : x ∈ l) :
    x ∈ distinctKeys l :=
  mem_distinctKeysAux [] hx (by simp)

lemma sum_map_add_nat {α : Type} (f g : α → Nat) (l : List α) :
    (l.map (fun a => f a + g a)).sum = (l.map f).sum + (l.map g).sum := by
  induction l with
  | nil => rfl
  | cons a l ih =>
    simp only [List.map_cons, List.sum_cons, ih]
    omega

lemma sum_map_indicator (x : String) (ks : List String) :
    (ks.map (fun k => if x = k then 1 else 0)).sum = ks.count x := by
  induction ks with
  | nil => simp
  | cons k ks ih =>
    by_cases h : x = k
    · subst h
      rw [List.map_cons, List.sum_cons, ih, List.count_cons_self, if_pos rfl]
      omega
    · rw [List.map_cons, List.sum_cons, ih, List.count_cons_of_ne h, if_neg h]
      omega

lemma sum_count_eq_length {ks l : List String}
    (hnd : ks.Nodup) (hcover : ∀ x ∈ l, x ∈ ks) :
    (ks.map (fun k => l.count k)).sum = l.length := by
  induction l with
  | nil => simp
  | cons x rest ih =>
    have hx : x ∈ ks := hcover x (List.mem_cons_self ..)
    have hcount : ∀ k, (x :: rest).count k = rest.count k + if x = k then 1 else 0 := by
      intro k
      by_cases h : k = x
      · subst h
        rw [List.count_cons_self, if_pos rfl]
      · rw [List.count_cons_of_ne h, if_neg (fun hc => h hc.symm)]
        omega
    have h1 : (ks.map (fun k => (x :: rest).count k)).sum =
        (ks.map (fun k => rest.count k)).sum + (ks.map (fun k => if x = k then 1 else 0)).sum := by
      rw [← sum_map_add_nat]
      simp only [hcount]
    rw [h1, ih (fun y hy => hcover y (List.mem_cons_of_mem _ hy)), sum_map_indicator,
      List.count_eq_one_of_mem hnd hx, List.length_cons]

lemma valueCounts_keys_nodup (l : List String) :
    ((valueCounts l).map (fun p => p.1)).Nodup := by
  have hperm : List.Perm ((valueCounts l).map (fun p => p.1))
      (((distinctKeys l).map (fun k => (k, l.count k))).map (fun p => p.1)) :=
    (List.perm_insertionSort cntGe _).map _
  apply hperm.nodup_iff.mpr
  rw [List.map_map]
  have hcomp : List.map ((fun p : String × Nat => p.1) ∘ fun k => (k, l.count k))
      (distinctKeys l) = distinctKeys l := by
    simp [Function.comp_def]
  rw [hcomp]
  exact distinctKeys_nodup l

lemma valueCounts_sum (l : List String) :
    ((valueCounts l).map (fun p => p.2)).sum = l.length := by
  have hperm : List.Perm ((valueCounts l).map (fun p => p.2))
      (((distinctKeys l).map (fun k => (k, l.count k))).map (fun p => p.2)) :=
    (List.perm_insertionSort cntGe _).map _
  rw [hperm.sum_eq, List.map_map]
  exact sum_count_eq_length (distinctKeys_nodup l) (fun x hx => mem_distinctKeys hx)

/-! ## Lemmas: the initial allocation -/

lemma keysOf_initAlloc (slots nRem : Nat) (counts : List (String × Nat)) :
    keysOf (initAlloc slots nRem counts) = counts.map (fun p => p.1) := by
  simp [initAlloc, keysOf, List.map_map, Function.comp_def]

lemma bounded_initAlloc (slots nRem : Nat) (counts : List (String × Nat)) :
    Bounded (initAlloc slots nRem counts) := by
  intro e he
  simp only [initAlloc, List.mem_map] at he
  obtain ⟨sc, _, rfl⟩ := he
  exact Nat.min_le_left _ _

lemma pythonRound_nonneg {q : ℚ} (h : 0 ≤ q) : 0 ≤ pythonRound q := by
  simp only [pythonRound]
  have hf : (0 : ℤ) ≤ ⌊q⌋ := Int.floor_nonneg.mpr h
  split
  · exact hf
  · split
    · omega
    · split
      · exact hf
      · omega

lemma pythonRound_le_two {q : ℚ} (h : 0 ≤ q) : (pythonRound q : ℚ) ≤ 2 * q := by
  simp only [pythonRound]
  have h1 : (⌊q⌋ : ℚ) ≤ q := Int.floor_le q
  have hf : (0 : ℤ) ≤ ⌊q⌋ := Int.floor_nonneg.mpr h
  have hf' : (0 : ℚ) ≤ (⌊q⌋ : ℚ) := by exact_mod_cast hf
  split
  · linarith
  · next hb1 =>
    split
    · next hb2 =>
      push_cast
      linarith
    · next hb2 =>
      have heq : q - (⌊q⌋ : ℚ) = 1/2 := le_antisymm (not_lt.mp hb2) (not_lt.mp hb1)
      split
      · linarith
      · push_cast
        linarith

lemma sum_map_add_q {α : Type} (f g : α → ℚ) (l : List α) :
    (l.map (fun a => f a + g a)).sum = (l.map f).sum + (l.map g).sum := by
  induction l with
  | nil => simp
  | cons a l ih =>
    simp only [List.map_cons, List.sum_cons, ih]
    ring

lemma sum_map_const_q {α : Type} (c : ℚ) (l : List α) :
    (l.map (fun _ => c)).sum = l.length * c := by
  induction l with
  | nil => simp
  | cons a l ih =>
    simp only [List.map_cons, List.sum_cons, ih, List.length_cons]
    push_cast
    ring

/-- The initial allocation overshoots `slots_left` by at most 100: without
the floor-at-1 the rounded shares sum to at most `2 * slots`, and the floor
is only applied when there are at most `slots` strata. -/
lemma sumAlloc_initAlloc_le {slots nRem : Nat} {counts : List (String × Nat)}
    (hsum : (counts.map (fun p => p.2)).sum = nRem) (hslots : slots ≤ 50) :
    sumAlloc (initAlloc slots nRem counts) ≤ slots + 100 := by
  by_cases hn : nRem = 0
  · have hz : ∀ sc ∈ counts, sc.2 = 0 := by
      intro sc hsc
      rw [hn] at hsum
      exact (List.sum_eq_zero_iff.mp hsum) sc.2 (List.mem_map_of_mem _ hsc)
    have hzero : sumAlloc (initAlloc slots nRem counts) = 0 := by
      unfold sumAlloc
      rw [List.sum_eq_zero]
      intro a ha
      simp only [initAlloc, List.map_map, List.mem_map] at ha
      obtain ⟨sc, hsc, rfl⟩ := ha
      simp [hz sc hsc]
    omega
  · set F : (String × Nat) → ℕ := fun sc =>
      min sc.2 (max 0 (if counts.length ≤ slots then
          max 1 (pythonRound ((slots : ℚ) * (sc.2 : ℚ) / (nRem : ℚ)))
        else pythonRound ((slots : ℚ) * (sc.2 : ℚ) / (nRem : ℚ)))).toNat with hF
    set cM : ℚ := if counts.length ≤ slots then 1 else 0 with hcM
    have hsumF : sumAlloc (initAlloc slots nRem counts) = (counts.map F).sum := by
      unfold sumAlloc initAlloc
      rw [List.map_map]
      rfl
    have key : ∀ sc ∈ counts,
        ((F sc : ℕ) : ℚ) ≤ cM + 2 * ((slots : ℚ) * (sc.2 : ℚ) / (nRem : ℚ)) := by
      intro sc _
      have hx : (0 : ℚ) ≤ (slots : ℚ) * (sc.2 : ℚ) / (nRem : ℚ) := by positivity
      have hr0 : 0 ≤ pythonRound ((slots : ℚ) * (sc.2 : ℚ) / (nRem : ℚ)) :=
        pythonRound_nonneg hx
      have hr2 : (pythonRound ((slots : ℚ) * (sc.2 : ℚ) / (nRem : ℚ)) : ℚ) ≤
          2 * ((slots : ℚ) * (sc.2 : ℚ) / (nRem : ℚ)) := pythonRound_le_two hx
      by_cases hfl : counts.length ≤ slots
      · have hFsc : F sc = min sc.2
            (max 1 (pythonRound ((slots : ℚ) * (sc.2 : ℚ) / (nRem : ℚ)))).toNat := by
          rw [hF]
          simp only [hfl, if_true]
          have hmx : max (0 : ℤ)
              (max 1 (pythonRound ((slots : ℚ) * (sc.2 : ℚ) / (nRem : ℚ)))) =
              max 1 (pythonRound ((slots : ℚ) * (sc.2 : ℚ) / (nRem : ℚ))) := by
            omega
          rw [hmx]
        have h2 : ((F sc : ℕ) : ℚ) ≤
            ((max 1 (pythonRound ((slots : ℚ) * (sc.2 : ℚ) / (nRem : ℚ)))).toNat : ℚ) := by
          rw [hFsc]
          exact_mod_cast Nat.min_le_right _ _
        refine le_trans h2 ?_
        have hge : (0 : ℤ) ≤ max 1 (pythonRound ((slots : ℚ) * (sc.2 : ℚ) / (nRem : ℚ))) :=
          le_trans zero_le_one (le_max_left _ _)
        have h3 : ((max 1 (pythonRound ((slots : ℚ) * (sc.2 : ℚ) / (nRem : ℚ)))).toNat : ℚ) =
            ((max 1 (pythonRound ((slots : ℚ) * (sc.2 : ℚ) / (nRem : ℚ))) : ℤ) : ℚ) := by
          exact_mod_cast congrArg (fun z : ℤ => (z : ℚ)) (Int.toNat_of_nonneg hge)
        rw [h3]
        have h5 : ((max 1 (pythonRound ((slots : ℚ) * (sc.2 : ℚ) / (nRem : ℚ))) : ℤ) : ℚ) ≤
            ((pythonRound ((slots : ℚ) * (sc.2 : ℚ) / (nRem : ℚ)) + 1 : ℤ) : ℚ) := by
          exact_mod_cast (by omega :
            max 1 (pythonRound ((slots : ℚ) * (sc.2 : ℚ) / (nRem : ℚ))) ≤
              pythonRound ((slots : ℚ) * (sc.2 : ℚ) / (nRem : ℚ)) + 1)
        refine le_trans h5 ?_
        push_cast
        simp only [hcM, hfl, if_true]
        linarith
      · have hFsc : F sc = min sc.2
            (pythonRound ((slots : ℚ) * (sc.2 : ℚ) / (nRem : ℚ))).toNat := by
          rw [hF]
          simp only [hfl, if_false]
          have hmx : max (0 : ℤ) (pythonRound ((slots : ℚ) * (sc.2 : ℚ) / (nRem : ℚ))) =
              pythonRound ((slots : ℚ) * (sc.2 : ℚ) / (nRem : ℚ)) := by
            omega
          rw [hmx]
        have h2 : ((F sc : ℕ) : ℚ) ≤
            ((pythonRound ((slots : ℚ) * (sc.2 : ℚ) / (nRem : ℚ))).toNat : ℚ) := by
          rw [hFsc]
          exact_mod_cast Nat.min_le_right _ _
        refine le_trans h2 ?_
        have h3 : ((pythonRound ((slots : ℚ) * (sc.2 : ℚ) / (nRem : ℚ))).toNat : ℚ) =
            ((pythonRound ((slots : ℚ) * (sc.2 : ℚ) / (nRem : ℚ)) : ℤ) : ℚ) := by
          exact_mod_cast congrArg (fun z : ℤ => (z : ℚ)) (Int.toNat_of_nonneg hr0)
        rw [h3]
        simp only [hcM, hfl, if_false]
        linarith
    have hle1 : ((counts.map F).sum : ℚ) ≤
        (counts.map (fun sc => cM + 2 * ((slots : ℚ) * (sc.2 : ℚ) / (nRem : ℚ)))).sum := by
      rw [Nat.cast_list_sum, List.map_map]
      exact List.sum_le_sum key
    have hmul : (counts.map (fun sc => 2 * ((slots : ℚ) * (sc.2 : ℚ) / (nRem : ℚ)))).sum
        = 2 * (slots : ℚ) := by
      have heq : (counts.map (fun sc => 2 * ((slots : ℚ) * (sc.2 : ℚ) / (nRem : ℚ)))) =
          (counts.map (fun sc => (2 * (slots : ℚ) / (nRem : ℚ)) * (sc.2 : ℚ))) := by
        apply List.map_congr_left
        intro sc _
        ring
      rw [heq, List.sum_map_mul_left]
      have hc : (counts.map (fun sc => ((sc.2 : ℕ) : ℚ))).sum = ((nRem : ℕ) : ℚ) := by
        rw [← hsum, Nat.cast_list_sum, List.map_map]
        rfl
      rw [hc]
      have hne : ((nRem : ℕ) : ℚ) ≠ 0 := Nat.cast_ne_zero.mpr hn
      field_simp
    have hsplit : (counts.map (fun sc => cM + 2 * ((slots : ℚ) * (sc.2 : ℚ) / (nRem : ℚ)))).sum =
        (counts.length : ℚ) * cM + 2 * (slots : ℚ) := by
      have h := sum_map_add_q (fun _ : String × Nat => cM)
        (fun sc : String × Nat => 2 * ((slots : ℚ) * (sc.2 : ℚ) / (nRem : ℚ))) counts
      simp only at h
      rw [h, sum_map_const_q, hmul]
    have hfinal : ((counts.map F).sum : ℚ) ≤ ((slots : ℚ) + 100) := by
      refine le_trans hle1 ?_
      rw [hsplit]
      by_cases hfl : counts.length ≤ slots
      · have h1 : (counts.length : ℚ) ≤ (slots : ℚ) := by exact_mod_cast hfl
        have h2 : (slots : ℚ) ≤ 50 := by exact_mod_cast hslots
        simp only [hcM, hfl, if_true]
        linarith
      · simp only [hcM, hfl, if_false]
        have h2 : (slots : ℚ) ≤ 50 := by exact_mod_cast hslots
        linarith
    rw [hsumF]
    exact_mod_cast hfinal

/-! ## Concrete draw functions

`DataFrame.sample` itself lives in pandas/numpy, outside this repository;
any function satisfying `DrawOk` is a legitimate instance of the spec's
"reproducible pseudo-random draw without replacement" (§4.4 step 5). -/

/-- A trivial deterministic draw: take the first `n` rows of the pool. -/
def takeDraw : DrawFn := fun _ pool n => pool.take n

lemma takeDraw_ok : DrawOk takeDraw :=
  fun _ pool n => (List.take_sublist n pool).subperm

/-- Modelled from the spec: the numpy `Generator` behind
`pool.sample(n, random_state=seed)` is not part of the repository; the spec
only requires a seed-determined without-replacement draw.  This model
rotates the pool by the seed and takes the first `n` rows, so the outcome
genuinely depends on the seed. -/
def rotDraw : DrawFn := fun seed pool n => (pool.rotate seed).take n

lemma rotDraw_ok : DrawOk rotDraw := fun seed pool n =>
  (List.take_sublist n (pool.rotate seed)).subperm.trans
    (List.rotate_perm pool seed).subperm

/-! ## Claim C1: the allocation sum invariant -/

lemma keysOf_initAlloc_nodup (slots nRem : Nat) (l : List String) :
    (keysOf (initAlloc slots nRem (valueCounts l))).Nodup := by
  rw [keysOf_initAlloc]
  exact valueCounts_keys_nodup l

/-- C1.  After the rebalancing loop of `select_sample`, for every input
universe: the sum of the per-stratum allocations never exceeds
`slots_left` (so when the loop converges the sum equals `slots_left`, and
when it exits without converging the sum is at most `slots_left`), and
every per-stratum allocation is at most that stratum's count in the
remaining pool. -/
theorem allocation_sum_invariant (u : List Region) :
    sumAlloc (finalAlloc u) ≤ slotsLeft u ∧
      ∀ e ∈ finalAlloc u, e.alloc ≤ e.count := by
  constructor
  · unfold finalAlloc
    apply sumAlloc_rebalance_le
    · exact keysOf_initAlloc_nodup ..
    · apply sumAlloc_initAlloc_le
      · unfold stratumCounts
        rw [valueCounts_sum]
        exact List.length_map ..
      · exact Nat.sub_le ..
  · show Bounded (finalAlloc u)
    unfold finalAlloc
    exact bounded_rebalance 100 (slotsLeft u) (keysOf_initAlloc_nodup ..)
      (bounded_initAlloc _ _ _)

/-- The concrete four-region scenario of spec §8. -/
def demoUniverse : List Region :=
  [⟨"a", 10000000, false, false, "West"⟩, ⟨"b", 2000000, false, false, "West"⟩,
   ⟨"c", 600000, false, false, "West"⟩, ⟨"d", 100000, false, false, "West"⟩]

/-- Witness for C1 at a concrete universe. -/
theorem allocation_sum_invariant_check :
    sumAlloc (finalAlloc demoUniverse) ≤ slotsLeft demoUniverse ∧
      ∀ e ∈ finalAlloc demoUniverse, e.alloc ≤ e.count :=
  allocation_sum_invariant demoUniverse

/-! ## Claim C2: the mandatory phase -/

/-- Spec-side definition (spec §4.4 step 1): "sort the universe descending
by population; take the first `mandatory_top_n`". -/
def specTopN (u : List Region) : List Region :=
  (List.insertionSort popGe u).take TOP_N_MANDATORY

/-- An 11-region universe listed in ascending population order. -/
def ascUniverse : List Region :=
  [⟨"m01", 1, false, false, "West"⟩, ⟨"m02", 2, false, false, "West"⟩,
   ⟨"m03", 3, false, false, "West"⟩, ⟨"m04", 4, false, false, "West"⟩,
   ⟨"m05", 5, false, false, "West"⟩, ⟨"m06", 6, false, false, "West"⟩,
   ⟨"m07", 7, false, false, "West"⟩, ⟨"m08", 8, false, false, "West"⟩,
   ⟨"m09", 9, false, false, "West"⟩, ⟨"m10", 10, false, false, "West"⟩,
   ⟨"m11", 11, false, false, "West"⟩]

/-- C2 counterexample: `select_sample` takes `df.head(TOP_N_MANDATORY)`
without sorting, so on a universe that is not sorted descending the
mandatory phase does not select the highest-population regions: here the
11-region ascending universe has mandatory set {pop 1..10}, not the top-10
{pop 2..11}. -/
theorem mandatory_unsorted_cex :
    mandatoryRegions ascUniverse ≠ specTopN ascUniverse := by decide

lemma mem_topUpLoop (tp : Nat) {s : List Tagged} (l : List Region) {t : Tagged}
    (ht : t ∈ s) : t ∈ topUpLoop tp s l := by
  induction l generalizing s with
  | nil => exact ht
  | cons r rest ih =>
    simp only [topUpLoop]
    split
    · exact ht
    · split
      · exact List.mem_append_left _ ht
      · exact ih (List.mem_append_left _ ht)

lemma mem_afterTopUp {draw : DrawFn} {stream : Nat → Nat} {u : List Region} {t : Tagged}
    (ht : t ∈ combined draw stream u) : t ∈ afterTopUp draw stream u := by
  simp only [afterTopUp]
  split
  · exact mem_topUpLoop _ _ ht
  · exact ht

/-- C2 (amended).  For a universe already sorted descending by population
(as the pipeline's `fetch_msa_population` guarantees) with at least
`TOP_N_MANDATORY` regions, the mandatory phase takes the first
`TOP_N_MANDATORY` rows, which coincide with the spec's "sort descending
and take the first `mandatory_top_n`"; they dominate every remaining
region in population, and each of them appears in the final sample with
`selection_method = "mandatory_top10"` (the code's spelling of the spec's
`mandatory` tag) and `sample_weight` exactly 1. -/
theorem mandatory_top_in_sample (draw : DrawFn) (stream : Nat → Nat)
    (u : List Region) (hsorted : List.Sorted popGe u)
    (hlen : TOP_N_MANDATORY ≤ u.length) :
    mandatoryRegions u = specTopN u ∧
    (mandatoryRegions u).length = TOP_N_MANDATORY ∧
    (∀ m ∈ mandatoryRegions u, ∀ r ∈ remainingPool u, r.population ≤ m.population) ∧
    (∀ m ∈ mandatoryRegions u, ∃ rec ∈ selectSample draw stream u,
      rec.region = m ∧ rec.method = "mandatory_top10" ∧ rec.weight = 1) := by
  refine ⟨?_, ?_, ?_, ?_⟩
  · unfold specTopN mandatoryRegions
    rw [hsorted.insertionSort_eq]
  · unfold mandatoryRegions
    rw [List.length_take]
    omega
  · intro m hm r hr
    have hsplit : List.Sorted popGe (u.take TOP_N_MANDATORY ++ u.drop TOP_N_MANDATORY) := by
      rw [List.take_append_drop]
      exact hsorted
    have := (List.pairwise_append.mp hsplit).2.2
    exact this m hm r hr
  · intro m hm
    have ht : (⟨m, "mandatory_top10"⟩ : Tagged) ∈ combined draw stream u :=
      List.mem_append_left _ (List.mem_map_of_mem _ hm)
    have ht' := mem_afterTopUp ht
    have hrec : (⟨m, "mandatory_top10", 1⟩ : SampleRec) ∈
        withWeights u (afterTopUp draw stream u) := by
      have := List.mem_map_of_mem (fun t : Tagged =>
        ({ region := t.region, method := t.method,
           weight := if t.method = "mandatory_top10" then 1
             else weightOf u ((afterTopUp draw stream u).map (·.region)) t.region } :
          SampleRec)) ht'
      simpa [withWeights] using this
    refine ⟨⟨m, "mandatory_top10", 1⟩, ?_, rfl, rfl, rfl⟩
    exact (List.perm_insertionSort popGeRec _).mem_iff.mpr hrec

/-- The same 11 regions in descending population order. -/
def descUniverse : List Region :=
  [⟨"m11", 11, false, false, "West"⟩, ⟨"m10", 10, false, false, "West"⟩,
   ⟨"m09", 9, false, false, "West"⟩, ⟨"m08", 8, false, false, "West"⟩,
   ⟨"m07", 7, false, false, "West"⟩, ⟨"m06", 6, false, false, "West"⟩,
   ⟨"m05", 5, false, false, "West"⟩, ⟨"m04", 4, false, false, "West"⟩,
   ⟨"m03", 3, false, false, "West"⟩, ⟨"m02", 2, false, false, "West"⟩,
   ⟨"m01", 1, false, false, "West"⟩]

/-- Witness for the amended C2 at a concrete sorted universe. -/
theorem mandatory_top_in_sample_check :
    mandatoryRegions descUniverse = specTopN descUniverse ∧
    (mandatoryRegions descUniverse).length = TOP_N_MANDATORY ∧
    (∀ m ∈ mandatoryRegions descUniverse, ∀ r ∈ remainingPool descUniverse,
      r.population ≤ m.population) ∧
    (∀ m ∈ mandatoryRegions descUniverse,
      ∃ rec ∈ selectSample takeDraw (fun k => k) descUniverse,
        rec.region = m ∧ rec.method = "mandatory_top10" ∧ rec.weight = 1) :=
  mandatory_top_in_sample takeDraw (fun k => k) descUniverse (by decide) (by decide)

/-! ## Claim C3: determinism -/

/-- C3.  The embedding makes every input of `select_sample` explicit (the
universe rows, the draw function standing for the seeded numpy generator,
and the rng stream); on identical inputs the two runs agree on the whole
output frame, hence on sample membership, `selection_method` tags and
`sample_weight`s.  The Python sources hold no other mutable state read by
`select_sample`. -/
theorem run_determinism (draw : DrawFn) (stream : Nat → Nat) (u v : List Region)
    (h : u = v) :
    selectSample draw stream u = selectSample draw stream v ∧
    (selectSample draw stream u).map (·.region) =
      (selectSample draw stream v).map (·.region) ∧
    (selectSample draw stream u).map (·.method) =
      (selectSample draw stream v).map (·.method) ∧
    (selectSample draw stream u).map (·.weight) =
      (selectSample draw stream v).map (·.weight) := by
  subst h
  exact ⟨rfl, rfl, rfl, rfl⟩

/-- Witness for C3 at a concrete universe. -/
theorem run_determinism_check :
    selectSample takeDraw (fun k => k) demoUniverse =
      selectSample takeDraw (fun k => k) demoUniverse ∧
    (selectSample takeDraw (fun k => k) demoUniverse).map (·.region) =
      (selectSample takeDraw (fun k => k) demoUniverse).map (·.region) ∧
    (selectSample takeDraw (fun k => k) demoUniverse).map (·.method) =
      (selectSample takeDraw (fun k => k) demoUniverse).map (·.method) ∧
    (selectSample takeDraw (fun k => k) demoUniverse).map (·.weight) =
      (selectSample takeDraw (fun k => k) demoUniverse).map (·.weight) :=
  run_determinism takeDraw (fun k => k) demoUniverse demoUniverse rfl

/-! ## Claim C5: stratum iteration order and the shared rng stream -/

/-- Two two-region strata distinguished by `census_region`. -/
def poolAB : List Region :=
  [⟨"a0", 1, false, false, "A"⟩, ⟨"a1", 1, false, false, "A"⟩,
   ⟨"b0", 1, false, false, "B"⟩, ⟨"b1", 1, false, false, "B"⟩]

/-- Allocation entries for the two strata of `poolAB`, in A-then-B order. -/
def entriesAB : List StratumEntry :=
  [⟨"Small_NoRail_NoSM_A", 2, 1⟩, ⟨"Small_NoRail_NoSM_B", 2, 1⟩]

/-- The same entries in B-then-A order. -/
def entriesBA : List StratumEntry :=
  [⟨"Small_NoRail_NoSM_B", 2, 1⟩, ⟨"Small_NoRail_NoSM_A", 2, 1⟩]

/-- C5.  The source draws each stratum's `random_state` from one shared
sequential rng stream (`rng.integers(1e9)` once per sampled stratum), so
the seed a stratum receives is its *position* in the iteration order, not
a function of the stratum: permuting the stratum iteration order changes
which regions are drawn, even for a fixed global seed, fixed stream and
fixed per-stratum pools.  Concretely, with the seed-sensitive draw model
`rotDraw`, iterating A-then-B draws {a0, b1} while B-then-A draws
{b0, a1}. -/
theorem draw_order_dependent :
    ¬ (drawStrata rotDraw (fun k => k) poolAB entriesAB 0).Perm
        (drawStrata rotDraw (fun k => k) poolAB entriesBA 0) := by decide

/-! ## Claim C8: no configuration validation -/

/-- C8.  `select_sample` performs no configuration validation: on an empty
universe it silently returns the empty sample (in Python, `0/0` population
coverage propagates as NaN, which fails the `< MIN_POPULATION_COVERAGE`
comparison; here coverage 0/0 is the rational 0) instead of refusing to
run with a configuration error.  No code path in sampler.py raises a
configuration error for `mandatory_top_n > target_size` either — the
constants are read from config.py unchecked. -/
theorem empty_universe_no_error (draw : DrawFn) (stream : Nat → Nat) :
    selectSample draw stream [] = [] := by
  have hc : combined draw stream [] = [] := rfl
  have hneed : neededList [] [] = [] := rfl
  have htop : topUpLoop (totalPop []) [] (neededList [] []) = [] := rfl
  simp only [selectSample, afterTopUp, hc]
  split
  · rw [htop]
    rfl
  · rfl

/-! ## The sample is a sub-multiset of the universe -/

lemma subperm_map {α β : Type} (f : α → β) {l₁ l₂ : List α} (h : l₁.Subperm l₂) :
    (l₁.map f).Subperm (l₂.map f) := by
  obtain ⟨l, hperm, hsub⟩ := h
  exact ⟨l.map f, hperm.map f, hsub.map f⟩

lemma nodup_of_subperm {α : Type} {l₁ l₂ : List α} (h : l₁.Subperm l₂)
    (hnd : l₂.Nodup) : l₁.Nodup := by
  obtain ⟨l, hperm, hsub⟩ := h
  exact hperm.nodup_iff.mp (hsub.nodup hnd)

lemma count_filter_stratum (pool : List Region) (k : String) (x : Region) :
    (pool.filter (fun r => stratumOf r = k)).count x =
      if stratumOf x = k then pool.count x else 0 := by
  by_cases h : stratumOf x = k
  · rw [if_pos h]
    exact List.count_filter (by simp [h])
  · rw [if_neg h, List.count_eq_zero]
    intro hmem
    rw [List.mem_filter] at hmem
    exact h (of_decide_eq_true hmem.2)

lemma count_drawStrata {draw : DrawFn} (hdraw : DrawOk draw) (stream : Nat → Nat)
    (pool : List Region) {es : List StratumEntry} (hnd : (keysOf es).Nodup)
    (k0 : Nat) (x : Region) :
    (drawStrata draw stream pool es k0).count x ≤
      if stratumOf x ∈ keysOf es then pool.count x else 0 := by
  induction es generalizing k0 with
  | nil => simp [drawStrata]
  | cons e rest ih =>
    have hnd' : (keysOf rest).Nodup := (List.nodup_cons.mp ((by exact hnd) :
      (e.key :: keysOf rest).Nodup)).2
    have hknot : e.key ∉ keysOf rest := (List.nodup_cons.mp ((by exact hnd) :
      (e.key :: keysOf rest).Nodup)).1
    have hmemkeys : keysOf (e :: rest) = e.key :: keysOf rest := rfl
    simp only [drawStrata]
    split
    · rw [List.count_append]
      by_cases hx : stratumOf x = e.key
      · have h1 : (draw (stream k0) (pool.filter (fun r => stratumOf r = e.key))
            (min e.alloc (pool.filter (fun r => stratumOf r = e.key)).length)).count x ≤
            pool.count x := by
          refine le_trans ((hdraw (stream k0) (pool.filter (fun r => stratumOf r = e.key))
            (min e.alloc (pool.filter (fun r => stratumOf r = e.key)).length)).count_le x) ?_
          rw [count_filter_stratum, if_pos hx]
        have h2 : (drawStrata draw stream pool rest (k0 + 1)).count x = 0 := by
          have := ih hnd' (k0 + 1)
          rw [if_neg (hx ▸ hknot)] at this
          omega
        rw [hmemkeys, if_pos (hx ▸ List.mem_cons_self ..)]
        omega
      · have h1 : (draw (stream k0) (pool.filter (fun r => stratumOf r = e.key))
            (min e.alloc (pool.filter (fun r => stratumOf r = e.key)).length)).count x = 0 := by
          have := le_trans ((hdraw (stream k0) (pool.filter (fun r => stratumOf r = e.key))
            (min e.alloc (pool.filter (fun r => stratumOf r = e.key)).length)).count_le x)
            (le_of_eq (count_filter_stratum pool e.key x))
          rw [if_neg hx] at this
          omega
        have h2 := ih hnd' (k0 + 1)
        rw [hmemkeys]
        by_cases hmem : stratumOf x ∈ keysOf rest
        · rw [if_pos (List.mem_cons_of_mem _ hmem)]
          rw [if_pos hmem] at h2
          omega
        · rw [if_neg (by simp [List.mem_cons, hx, hmem])]
          rw [if_neg hmem] at h2
          omega
    · refine le_trans (ih hnd' k0) ?_
      rw [hmemkeys]
      by_cases hmem : stratumOf x ∈ keysOf rest
      · rw [if_pos hmem, if_pos (List.mem_cons_of_mem _ hmem)]
      · rw [if_neg hmem]
        exact Nat.zero_le _

lemma keysOf_finalAlloc_nodup (u : List Region) : (keysOf (finalAlloc u)).Nodup := by
  unfold finalAlloc
  rw [keysOf_rebalance]
  exact keysOf_initAlloc_nodup ..

lemma regions_combined (draw : DrawFn) (stream : Nat → Nat) (u : List Region) :
    (combined draw stream u).map (·.region) =
      mandatoryRegions u ++ drawStrata draw stream (remainingPool u) (finalAlloc u) 0 := by
  unfold combined
  rw [List.map_append, List.map_map, List.map_map]
  simp [Function.comp_def]

lemma combined_subperm {draw : DrawFn} (hdraw : DrawOk draw) (stream : Nat → Nat)
    (u : List Region) : ((combined draw stream u).map (·.region)).Subperm u := by
  rw [List.subperm_ext_iff]
  intro x _
  rw [regions_combined, List.count_append]
  have h1 : (mandatoryRegions u).count x = (u.take TOP_N_MANDATORY).count x := rfl
  have h2 : (drawStrata draw stream (remainingPool u) (finalAlloc u) 0).count x ≤
      (u.drop TOP_N_MANDATORY).count x := by
    refine le_trans (count_drawStrata hdraw stream _ (keysOf_finalAlloc_nodup u) 0 x) ?_
    split
    · exact le_rfl
    · exact Nat.zero_le _
  have h3 : u.count x = (u.take TOP_N_MANDATORY).count x + (u.drop TOP_N_MANDATORY).count x := by
    conv_lhs => rw [← List.take_append_drop TOP_N_MANDATORY u]
    rw [List.count_append]
  omega

/-- The top-up loop keeps the sample inside the universe and keeps its ids
distinct. -/
lemma topUp_invariant (tp : Nat) (u : List Region) :
    ∀ (l : List Region) (s : List Tagged),
      (∀ t ∈ s, t.region ∈ u) →
      ((s.map (·.region.cbsa_code)).Nodup) →
      (∀ r ∈ l, r ∈ u) →
      ((l.map (·.cbsa_code)).Nodup) →
      (∀ r ∈ l, ¬ r.cbsa_code ∈ s.map (·.region.cbsa_code)) →
      (∀ t ∈ topUpLoop tp s l, t.region ∈ u) ∧
        ((topUpLoop tp s l).map (·.region.cbsa_code)).Nodup := by
  intro l
  induction l with
  | nil => exact fun s hs hnd _ _ _ => ⟨hs, hnd⟩
  | cons r rest ih =>
    intro s hs hnd hl hlnd hlfresh
    simp only [topUpLoop]
    split
    · exact ⟨hs, hnd⟩
    · have hs' : ∀ t ∈ s ++ [(⟨r, "coverage_boost"⟩ : Tagged)], t.region ∈ u := by
        intro t ht
        rcases List.mem_append.mp ht with h | h
        · exact hs t h
        · rcases List.mem_singleton.mp h with rfl
          exact hl r (List.mem_cons_self ..)
      have hnd' : ((s ++ [(⟨r, "coverage_boost"⟩ : Tagged)]).map
          (·.region.cbsa_code)).Nodup := by
        rw [List.map_append]
        refine List.Nodup.append hnd (by simp) ?_
        intro c hc hmem
        simp only [List.map_cons, List.map_nil, List.mem_singleton] at hmem
        subst hmem
        exact hlfresh r (List.mem_cons_self ..) hc
      split
      · exact ⟨hs', hnd'⟩
      · refine ih (s ++ [⟨r, "coverage_boost"⟩]) hs' hnd'
          (fun r' hr' => hl r' (List.mem_cons_of_mem _ hr')) ?_ ?_
        · exact (List.nodup_cons.mp ((by exact hlnd) :
            (r.cbsa_code :: rest.map (·.cbsa_code)).Nodup)).2
        · intro r' hr'
          rw [List.map_append]
          intro hmem
          rcases List.mem_append.mp hmem with h | h
          · exact hlfresh r' (List.mem_cons_of_mem _ hr') h
          · simp only [List.map_cons, List.map_nil, List.mem_singleton] at h
            have : r.cbsa_code ∉ rest.map (·.cbsa_code) :=
              (List.nodup_cons.mp ((by exact hlnd) :
                (r.cbsa_code :: rest.map (·.cbsa_code)).Nodup)).1
            exact this (h ▸ List.mem_map_of_mem (·.cbsa_code) hr')

lemma neededList_props (u : List Region) (s : List Tagged)
    (hids : (u.map (·.cbsa_code)).Nodup) :
    (∀ r ∈ neededList u s, r ∈ u) ∧
      ((neededList u s).map (·.cbsa_code)).Nodup ∧
      (∀ r ∈ neededList u s, ¬ r.cbsa_code ∈ s.map (·.region.cbsa_code)) := by
  have hperm : List.Perm (neededList u s)
      (u.filter (fun r => !((s.map (·.region.cbsa_code)).contains r.cbsa_code))) :=
    List.perm_insertionSort ..
  refine ⟨?_, ?_, ?_⟩
  · intro r hr
    exact List.mem_of_mem_filter (hperm.mem_iff.mp hr)
  · have hsub : ((u.filter (fun r =>
        !((s.map (·.region.cbsa_code)).contains r.cbsa_code))).map (·.cbsa_code)).Sublist
        (u.map (·.cbsa_code)) := (List.filter_sublist u).map _
    exact ((hperm.map (·.cbsa_code)).nodup_iff).mpr (hsub.nodup hids)
  · intro r hr hmem
    have hfil := List.of_mem_filter (hperm.mem_iff.mp hr)
    rw [Bool.not_eq_eq_eq_not, Bool.not_true] at hfil
    have helem : List.elem r.cbsa_code (s.map (·.region.cbsa_code)) = false := hfil
    rw [List.elem_eq_mem, decide_eq_false_iff_not] at helem
    exact helem hmem

/-- The sample after the coverage top-up stays inside the universe with
pairwise-distinct ids. -/
lemma sample_subset {draw : DrawFn} (hdraw : DrawOk draw) (stream : Nat → Nat)
    (u : List Region) (hids : (u.map (·.cbsa_code)).Nodup) :
    (∀ t ∈ afterTopUp draw stream u, t.region ∈ u) ∧
      ((afterTopUp draw stream u).map (·.region.cbsa_code)).Nodup := by
  have hsub := combined_subperm hdraw stream u
  have hcsub : ∀ t ∈ combined draw stream u, t.region ∈ u := by
    intro t ht
    exact hsub.subset (List.mem_map_of_mem (·.region) ht)
  have hcnd : ((combined draw stream u).map (·.region.cbsa_code)).Nodup := by
    have h1 : ((combined draw stream u).map (·.region.cbsa_code)) =
        (((combined draw stream u).map (·.region)).map (·.cbsa_code)) := by
      rw [List.map_map]
      rfl
    rw [h1]
    exact nodup_of_subperm (subperm_map (·.cbsa_code) hsub) hids
  simp only [afterTopUp]
  split
  · obtain ⟨hp1, hp2, hp3⟩ := neededList_props u (combined draw stream u) hids
    exact topUp_invariant (totalPop u) u (neededList u (combined draw stream u))
      (combined draw stream u) hcsub hcnd hp1 hp2 hp3
  · exact ⟨hcsub, hcnd⟩

lemma sampleRegions_subperm {draw : DrawFn} (hdraw : DrawOk draw)
    (stream : Nat → Nat) (u : List Region)
    (hids : (u.map (·.cbsa_code)).Nodup) :
    (sampleRegions draw stream u).Subperm u := by
  obtain ⟨h1, h2⟩ := sample_subset hdraw stream u hids
  have hnd : (sampleRegions draw stream u).Nodup := by
    have : ((sampleRegions draw stream u).map (·.cbsa_code)).Nodup := by
      unfold sampleRegions
      rw [List.map_map]
      exact h2
    exact this.of_map _
  refine hnd.subperm ?_
  intro x hx
  rcases List.mem_map.mp hx with ⟨t, ht, rfl⟩
  exact h1 t ht

/-! ## Claim C7: no duplicates in the final sample -/

/-- C7.  For a universe with pairwise-distinct `cbsa_code`s and any draw
satisfying the without-replacement contract, the ids of the final sample
are pairwise distinct: the mandatory head, the per-stratum draws (disjoint
pools, drawn without replacement) and the coverage-boost additions
(filtered on `~isin`) never produce the same region twice. -/
theorem sample_no_duplicates (draw : DrawFn) (stream : Nat → Nat)
    (hdraw : DrawOk draw) (u : List Region)
    (hids : (u.map (·.cbsa_code)).Nodup) :
    ((selectSample draw stream u).map (·.region.cbsa_code)).Nodup := by
  have h := (sample_subset hdraw stream u hids).2
  have hperm : List.Perm ((selectSample draw stream u).map (·.region.cbsa_code))
      ((withWeights u (afterTopUp draw stream u)).map (·.region.cbsa_code)) :=
    (List.perm_insertionSort popGeRec _).map _
  rw [hperm.nodup_iff]
  have hww : (withWeights u (afterTopUp draw stream u)).map (·.region.cbsa_code) =
      (afterTopUp draw stream u).map (·.region.cbsa_code) := by
    unfold withWeights
    rw [List.map_map]
    rfl
  rw [hww]
  exact h

/-- Witness for C7 at a concrete universe. -/
theorem sample_no_duplicates_check :
    ((selectSample takeDraw (fun k => k) demoUniverse).map (·.region.cbsa_code)).Nodup :=
  sample_no_duplicates takeDraw (fun k => k) takeDraw_ok demoUniverse (by decide)

/-! ## Claim C10: sample weights -/

/-- C10.  For a universe with pairwise-distinct ids: every weight in the
output is at least 1; mandatory rows get exactly 1; every other row's
weight is its stratum's universe count divided by its stratum's sample
count, the sample count being positive and never exceeding the universe
count. -/
theorem sample_weights (draw : DrawFn) (stream : Nat → Nat) (hdraw : DrawOk draw)
    (u : List Region) (hids : (u.map (·.cbsa_code)).Nodup) :
    ∀ rec ∈ selectSample draw stream u,
      1 ≤ rec.weight ∧
      (rec.method = "mandatory_top10" → rec.weight = 1) ∧
      (rec.method ≠ "mandatory_top10" →
        rec.weight = (stratumCountIn (stratumOf rec.region) u : ℚ) /
          (stratumCountIn (stratumOf rec.region) (sampleRegions draw stream u) : ℚ) ∧
        0 < stratumCountIn (stratumOf rec.region) (sampleRegions draw stream u) ∧
        stratumCountIn (stratumOf rec.region) (sampleRegions draw stream u) ≤
          stratumCountIn (stratumOf rec.region) u) := by
  intro rec hrec
  have hmem : rec ∈ withWeights u (afterTopUp draw stream u) :=
    (List.perm_insertionSort popGeRec _).mem_iff.mp hrec
  rcases List.mem_map.mp hmem with ⟨t, ht, rfl⟩
  have hn : 0 < stratumCountIn (stratumOf t.region) (sampleRegions draw stream u) := by
    unfold stratumCountIn
    rw [List.length_pos]
    intro hempty
    have : t.region ∈ (sampleRegions draw stream u).filter
        (fun r => stratumOf r = stratumOf t.region) := by
      rw [List.mem_filter]
      exact ⟨List.mem_map_of_mem (·.region) ht, by simp⟩
    rw [hempty] at this
    exact List.not_mem_nil _ this
  have hNn : stratumCountIn (stratumOf t.region) (sampleRegions draw stream u) ≤
      stratumCountIn (stratumOf t.region) u := by
    unfold stratumCountIn
    rw [← List.countP_eq_length_filter, ← List.countP_eq_length_filter]
    obtain ⟨l, hperm, hsub⟩ := sampleRegions_subperm hdraw stream u hids
    rw [← hperm.countP_eq]
    exact hsub.countP_le _
  by_cases hm : t.method = "mandatory_top10"
  · refine ⟨?_, fun _ => ?_, fun hne => absurd hm hne⟩
    · show (1 : ℚ) ≤ if t.method = "mandatory_top10" then (1 : ℚ)
        else weightOf u ((afterTopUp draw stream u).map (·.region)) t.region
      rw [if_pos hm]
    · show (if t.method = "mandatory_top10" then (1 : ℚ)
        else weightOf u ((afterTopUp draw stream u).map (·.region)) t.region) = 1
      rw [if_pos hm]
  · have hwexp : (if t.method = "mandatory_top10" then (1 : ℚ)
        else weightOf u ((afterTopUp draw stream u).map (·.region)) t.region) =
        weightOf u (sampleRegions draw stream u) t.region := by
      rw [if_neg hm]
      rfl
    have hwof : weightOf u (sampleRegions draw stream u) t.region =
        (stratumCountIn (stratumOf t.region) u : ℚ) /
          (stratumCountIn (stratumOf t.region) (sampleRegions draw stream u) : ℚ) := by
      unfold weightOf countOr1
      rw [if_neg (by omega), if_neg (by omega)]
    have hge1 : (1 : ℚ) ≤ (stratumCountIn (stratumOf t.region) u : ℚ) /
        (stratumCountIn (stratumOf t.region) (sampleRegions draw stream u) : ℚ) := by
      rw [one_le_div (by exact_mod_cast hn)]
      exact_mod_cast hNn
    refine ⟨?_, fun hcontra => absurd hcontra hm, fun _ => ⟨?_, hn, hNn⟩⟩
    · show (1 : ℚ) ≤ if t.method = "mandatory_top10" then (1 : ℚ)
        else weightOf u ((afterTopUp draw stream u).map (·.region)) t.region
      rw [hwexp, hwof]
      exact hge1
    · show (if t.method = "mandatory_top10" then (1 : ℚ)
        else weightOf u ((afterTopUp draw stream u).map (·.region)) t.region) = _
      rw [hwexp, hwof]

/-- Witness for C10 at a concrete universe. -/
theorem sample_weights_check :
    (selectSample takeDraw (fun k => k) descUniverse).Forall (fun rec =>
      1 ≤ rec.weight ∧
      (rec.method = "mandatory_top10" → rec.weight = 1) ∧
      (rec.method ≠ "mandatory_top10" →
        rec.weight = (stratumCountIn (stratumOf rec.region) descUniverse : ℚ) /
          (stratumCountIn (stratumOf rec.region)
            (sampleRegions takeDraw (fun k => k) descUniverse) : ℚ) ∧
        0 < stratumCountIn (stratumOf rec.region)
          (sampleRegions takeDraw (fun k => k) descUniverse) ∧
        stratumCountIn (stratumOf rec.region)
            (sampleRegions takeDraw (fun k => k) descUniverse) ≤
          stratumCountIn (stratumOf rec.region) descUniverse)) :=
  List.forall_iff_forall_mem.mpr
    (sample_weights takeDraw (fun k => k) takeDraw_ok descUniverse (by decide))

/-! ## Claim C6: the coverage top-up -/

instance : IsTotal Region popGe := ⟨fun a b => le_total b.population a.population⟩

instance : IsTrans Region popGe := ⟨fun _ _ _ hab hbc => le_trans hbc hab⟩

lemma samplePop_append (s1 s2 : List Tagged) :
    samplePop (s1 ++ s2) = samplePop s1 + samplePop s2 := by
  simp [samplePop]

lemma sum_pop_filter (u : List Region) (p : Region → Bool) :
    ((u.filter p).map (·.population)).sum +
      ((u.filter (fun r => !(p r))).map (·.population)).sum =
      (u.map (·.population)).sum := by
  induction u with
  | nil => simp
  | cons r rest ih =>
    by_cases h : p r
    · rw [List.filter_cons_of_pos h, List.filter_cons_of_neg (by simp [h])]
      simp only [List.map_cons, List.sum_cons]
      omega
    · rw [List.filter_cons_of_neg (by simp [h]), List.filter_cons_of_pos (by simp [h])]
      simp only [List.map_cons, List.sum_cons]
      omega

lemma sample_perm_filter {u : List Region} {s : List Tagged}
    (hsub : ∀ t ∈ s, t.region ∈ u)
    (hndu : (u.map (·.cbsa_code)).Nodup)
    (hnds : (s.map (·.region.cbsa_code)).Nodup) :
    List.Perm (s.map (·.region))
      (u.filter (fun r => (s.map (·.region.cbsa_code)).contains r.cbsa_code)) := by
  have hcontains : ∀ a : String, ∀ l : List String, l.contains a = true ↔ a ∈ l := by
    intro a l
    show List.elem a l = true ↔ a ∈ l
    rw [List.elem_eq_mem, decide_eq_true_iff]
  have hndregs : (s.map (·.region)).Nodup := by
    have : ((s.map (·.region)).map (·.cbsa_code)).Nodup := by
      rw [List.map_map]
      exact hnds
    exact this.of_map _
  have hndfil : (u.filter (fun r =>
      (s.map (·.region.cbsa_code)).contains r.cbsa_code)).Nodup :=
    (List.filter_sublist u).nodup (hndu.of_map _)
  rw [List.perm_ext_iff_of_nodup hndregs hndfil]
  intro x
  constructor
  · intro hx
    rcases List.mem_map.mp hx with ⟨t, ht, rfl⟩
    rw [List.mem_filter]
    refine ⟨hsub t ht, ?_⟩
    rw [hcontains]
    exact List.mem_map_of_mem (fun t : Tagged => t.region.cbsa_code) ht
  · intro hx
    rw [List.mem_filter] at hx
    obtain ⟨hxu, hxc⟩ := hx
    rw [hcontains] at hxc
    rcases List.mem_map.mp hxc with ⟨t, ht, hcb⟩
    have hteq : t.region = x := by
      refine List.inj_on_of_nodup_map hndu (hsub t ht) hxu hcb
    exact hteq ▸ List.mem_map_of_mem (·.region) ht

/-- Partition of the universe population between the current sample and
the `needed` list (lines 133–134). -/
lemma partition_pop {u : List Region} {s : List Tagged}
    (hsub : ∀ t ∈ s, t.region ∈ u)
    (hndu : (u.map (·.cbsa_code)).Nodup)
    (hnds : (s.map (·.region.cbsa_code)).Nodup) :
    samplePop s + ((neededList u s).map (·.population)).sum = totalPop u := by
  have hperm1 := sample_perm_filter hsub hndu hnds
  have h1 : samplePop s = ((u.filter (fun r =>
      (s.map (·.region.cbsa_code)).contains r.cbsa_code)).map (·.population)).sum := by
    unfold samplePop
    have : (s.map (·.region.population)) = ((s.map (·.region)).map (·.population)) := by
      rw [List.map_map]
      rfl
    rw [this, (hperm1.map (·.population)).sum_eq]
  have hperm2 : List.Perm (neededList u s)
      (u.filter (fun r => !((s.map (·.region.cbsa_code)).contains r.cbsa_code))) :=
    List.perm_insertionSort ..
  have h2 : ((neededList u s).map (·.population)).sum =
      ((u.filter (fun r =>
        !((s.map (·.region.cbsa_code)).contains r.cbsa_code))).map (·.population)).sum :=
    (hperm2.map (·.population)).sum_eq
  rw [h1, h2]
  exact sum_pop_filter u _

lemma coverage_append_lt {s : List Tagged} {r : Region} {tp : Nat} (htp : 0 < tp)
    (hpos : 0 < r.population) (m : String) :
    coverage s tp < coverage (s ++ [⟨r, m⟩]) tp := by
  unfold coverage
  rw [div_lt_div_iff_of_pos_right (by exact_mod_cast htp)]
  rw [samplePop_append]
  have h1 : samplePop [(⟨r, m⟩ : Tagged)] = r.population := by
    simp [samplePop]
  rw [h1]
  have h2 : (0 : ℚ) < (r.population : ℚ) := by exact_mod_cast hpos
  push_cast
  linarith

set_option maxHeartbeats 2000000 in
/-- Full functional specification of the top-up loop (lines 135–142): the
additions are a prefix of the population-sorted `needed` list; every
addition happens strictly below the coverage target and strictly below
`MAX_SAMPLE_SIZE`, and strictly increases coverage; and the loop stops
only by reaching the target, reaching `MAX_SAMPLE_SIZE`, or exhausting
the candidates. -/
lemma topUpLoop_spec {tp : Nat} (htp : 0 < tp) :
    ∀ (l : List Region) (s : List Tagged),
      samplePop s + (l.map (·.population)).sum = tp →
      List.Sorted popGe l →
      coverage s tp < MIN_POPULATION_COVERAGE →
      ∃ k ≤ l.length,
        topUpLoop tp s l = s ++ (l.take k).map (fun r => ⟨r, "coverage_boost"⟩) ∧
        (∀ i < k, coverage (s ++ (l.take i).map (fun r => ⟨r, "coverage_boost"⟩)) tp <
            MIN_POPULATION_COVERAGE ∧ s.length + i < MAX_SAMPLE_SIZE) ∧
        (∀ i < k, coverage (s ++ (l.take i).map (fun r => ⟨r, "coverage_boost"⟩)) tp <
            coverage (s ++ (l.take (i+1)).map (fun r => ⟨r, "coverage_boost"⟩)) tp) ∧
        (MIN_POPULATION_COVERAGE ≤ coverage (topUpLoop tp s l) tp ∨
          MAX_SAMPLE_SIZE ≤ (topUpLoop tp s l).length ∨ k = l.length) := by
  intro l
  induction l with
  | nil =>
    intro s _ _ _
    refine ⟨0, Nat.le_refl 0, ?_, by omega, by omega, Or.inr (Or.inr rfl)⟩
    simp [topUpLoop]
  | cons r rest ih =>
    intro s hpart hsort hcov
    have hhead : ∀ x ∈ rest, x.population ≤ r.population :=
      fun x hx => (List.sorted_cons.mp hsort).1 x hx
    have hstep : topUpLoop tp s (r :: rest) =
        if MAX_SAMPLE_SIZE ≤ s.length then s
        else if MIN_POPULATION_COVERAGE ≤
            coverage (s ++ [⟨r, "coverage_boost"⟩]) tp
          then s ++ [⟨r, "coverage_boost"⟩]
          else topUpLoop tp (s ++ [⟨r, "coverage_boost"⟩]) rest := rfl
    by_cases hmax : MAX_SAMPLE_SIZE ≤ s.length
    · rw [hstep, if_pos hmax]
      refine ⟨0, Nat.zero_le _, by simp, by omega, by omega, ?_⟩
      exact Or.inr (Or.inl hmax)
    · have hrpos : 0 < r.population := by
        by_contra hr0
        push_neg at hr0
        have hz : r.population = 0 := by omega
        have hall : ((r :: rest).map (·.population)).sum = 0 := by
          rw [List.sum_eq_zero]
          intro x hx
          rcases List.mem_map.mp hx with ⟨y, hy, rfl⟩
          rcases List.mem_cons.mp hy with rfl | hy'
          · exact hz
          · have := hhead y hy'
            omega
        have hsp : samplePop s = tp := by
          rw [hall] at hpart
          omega
        have hone : coverage s tp = 1 := by
          unfold coverage
          rw [hsp]
          exact div_self (by exact_mod_cast Nat.pos_iff_ne_zero.mp htp)
        rw [hone] at hcov
        unfold MIN_POPULATION_COVERAGE at hcov
        norm_num at hcov
      have hcovlt : coverage s tp <
          coverage (s ++ [⟨r, "coverage_boost"⟩]) tp :=
        coverage_append_lt htp hrpos _
      have hpart' : samplePop (s ++ [(⟨r, "coverage_boost"⟩ : Tagged)]) +
          (rest.map (·.population)).sum = tp := by
        rw [samplePop_append]
        have h1 : samplePop [(⟨r, "coverage_boost"⟩ : Tagged)] = r.population := by
          simp [samplePop]
        rw [h1]
        simp only [List.map_cons, List.sum_cons] at hpart
        omega
      by_cases hc2 : MIN_POPULATION_COVERAGE ≤
          coverage (s ++ [⟨r, "coverage_boost"⟩]) tp
      · rw [hstep, if_neg hmax, if_pos hc2]
        refine ⟨1, by simp, by simp, ?_, ?_, Or.inl hc2⟩
        · intro i hi
          have hi0 : i = 0 := by omega
          subst hi0
          exact ⟨by simpa using hcov, by omega⟩
        · intro i hi
          have hi0 : i = 0 := by omega
          subst hi0
          simpa using hcovlt
      · have hcov' : coverage (s ++ [(⟨r, "coverage_boost"⟩ : Tagged)]) tp <
            MIN_POPULATION_COVERAGE := lt_of_not_le hc2
        have hsort2 : List.Sorted popGe rest := (List.sorted_cons.mp hsort).2
        have hih1 := ih (s ++ [⟨r, "coverage_boost"⟩])
        have hih2 := hih1 hpart'
        have hih3 := hih2 hsort2
        obtain ⟨k', hk'le, heq, hbelow, hstrict, hstop⟩ := hih3 hcov'
        have hloop : topUpLoop tp s (r :: rest) =
            topUpLoop tp (s ++ [⟨r, "coverage_boost"⟩]) rest := by
          rw [hstep, if_neg hmax, if_neg hc2]
        have happ : ∀ j : Nat, s ++ (((r :: rest).take (j+1)).map
            (fun x => (⟨x, "coverage_boost"⟩ : Tagged))) =
            (s ++ [⟨r, "coverage_boost"⟩]) ++
              ((rest.take j).map (fun x => ⟨x, "coverage_boost"⟩)) := by
          intro j
          rw [List.take_succ_cons, List.map_cons, List.append_cons]
        refine ⟨k' + 1, by rw [List.length_cons]; omega, ?_, ?_, ?_, ?_⟩
        · rw [hloop, heq, happ]
        · intro i hi
          cases i with
          | zero =>
            exact ⟨by simpa using hcov, by omega⟩
          | succ j =>
            have hj : j < k' := by omega
            obtain ⟨hb1, hb2⟩ := hbelow j hj
            refine ⟨by rw [happ]; exact hb1, ?_⟩
            simp only [List.length_append, List.length_singleton] at hb2
            omega
        · intro i hi
          cases i with
          | zero =>
            have h0 : (s ++ (((r :: rest).take 0).map
                (fun x => (⟨x, "coverage_boost"⟩ : Tagged)))) = s := by simp
            have h1 : (s ++ (((r :: rest).take 1).map
                (fun x => (⟨x, "coverage_boost"⟩ : Tagged)))) =
                s ++ [⟨r, "coverage_boost"⟩] := by simp
            rw [h0, h1]
            exact hcovlt
          | succ j =>
            have hj : j < k' := by omega
            have hs := hstrict j hj
            rw [happ, happ]
            exact hs
        · rw [hloop]
          rcases hstop with h | h | h
          · exact Or.inl h
          · exact Or.inr (Or.inl h)
          · refine Or.inr (Or.inr ?_)
            rw [List.length_cons]
            omega

/-- Membership and distinctness facts about `combined`, needed to
instantiate the top-up specification inside `select_sample`. -/
lemma combined_facts {draw : DrawFn} (hdraw : DrawOk draw) (stream : Nat → Nat)
    (u : List Region) (hids : (u.map (·.cbsa_code)).Nodup) :
    (∀ t ∈ combined draw stream u, t.region ∈ u) ∧
      ((combined draw stream u).map (·.region.cbsa_code)).Nodup := by
  have hsub := combined_subperm hdraw stream u
  constructor
  · intro t ht
    exact hsub.subset (List.mem_map_of_mem (·.region) ht)
  · have h1 : ((combined draw stream u).map (·.region.cbsa_code)) =
        (((combined draw stream u).map (·.region)).map (·.cbsa_code)) := by
      rw [List.map_map]
      rfl
    rw [h1]
    exact nodup_of_subperm (subperm_map (·.cbsa_code) hsub) hids

/-- C6.  In `select_sample`, whenever coverage after combining the
mandatory and stratified-random selections is below
`MIN_POPULATION_COVERAGE` (for a universe with distinct ids and positive
total population, drawn without replacement): the top-up phase runs on the
population-descending list of regions outside the sample; the regions it
adds form a prefix of that list; every addition happens strictly below the
coverage target and strictly below `MAX_SAMPLE_SIZE` and strictly
increases coverage; and the phase stops only on reaching the target,
reaching `MAX_SAMPLE_SIZE`, or exhausting the candidates — whichever
happens first. -/
theorem coverage_topup (draw : DrawFn) (stream : Nat → Nat) (hdraw : DrawOk draw)
    (u : List Region) (hids : (u.map (·.cbsa_code)).Nodup)
    (htp : 0 < totalPop u)
    (hcov : coverage (combined draw stream u) (totalPop u) < MIN_POPULATION_COVERAGE) :
    afterTopUp draw stream u =
      topUpLoop (totalPop u) (combined draw stream u)
        (neededList u (combined draw stream u)) ∧
    List.Sorted popGe (neededList u (combined draw stream u)) ∧
    ∃ k ≤ (neededList u (combined draw stream u)).length,
      afterTopUp draw stream u = combined draw stream u ++
        ((neededList u (combined draw stream u)).take k).map
          (fun r => ⟨r, "coverage_boost"⟩) ∧
      (∀ i < k, coverage (combined draw stream u ++
          ((neededList u (combined draw stream u)).take i).map
            (fun r => ⟨r, "coverage_boost"⟩)) (totalPop u) < MIN_POPULATION_COVERAGE ∧
          (combined draw stream u).length + i < MAX_SAMPLE_SIZE) ∧
      (∀ i < k, coverage (combined draw stream u ++
          ((neededList u (combined draw stream u)).take i).map
            (fun r => ⟨r, "coverage_boost"⟩)) (totalPop u) <
        coverage (combined draw stream u ++
          ((neededList u (combined draw stream u)).take (i+1)).map
            (fun r => ⟨r, "coverage_boost"⟩)) (totalPop u)) ∧
      (MIN_POPULATION_COVERAGE ≤ coverage (afterTopUp draw stream u) (totalPop u) ∨
        MAX_SAMPLE_SIZE ≤ (afterTopUp draw stream u).length ∨
        k = (neededList u (combined draw stream u)).length) := by
  obtain ⟨hsubm, hnds⟩ := combined_facts hdraw stream u hids
  have hat : afterTopUp draw stream u =
      topUpLoop (totalPop u) (combined draw stream u)
        (neededList u (combined draw stream u)) := by
    simp only [afterTopUp]
    rw [if_pos hcov]
  have hsorted : List.Sorted popGe (neededList u (combined draw stream u)) :=
    List.sorted_insertionSort popGe _
  have hpart := partition_pop hsubm hids hnds
  obtain ⟨k, hkle, heq, hbelow, hstrict, hstop⟩ :=
    topUpLoop_spec htp (neededList u (combined draw stream u))
      (combined draw stream u) hpart hsorted hcov
  refine ⟨hat, hsorted, k, hkle, ?_, hbelow, hstrict, ?_⟩
  · rw [hat, heq]
  · rw [hat]
    exact hstop

/-- A 60-region universe in one stratum: 50 regions of population 1
followed by 10 of population 10000.  The mandatory head and the 40 drawn
rows cover only 50 of 100050 people, so the top-up phase runs. -/
def bigUniverse : List Region :=
  [⟨"u01", 1, false, false, "X"⟩,
   ⟨"u02", 1, false, false, "X"⟩,
   ⟨"u03", 1, false, false, "X"⟩,
   ⟨"u04", 1, false, false, "X"⟩,
   ⟨"u05", 1, false, false, "X"⟩,
   ⟨"u06", 1, false, false, "X"⟩,
   ⟨"u07", 1, false, false, "X"⟩,
   ⟨"u08", 1, false, false, "X"⟩,
   ⟨"u09", 1, false, false, "X"⟩,
   ⟨"u10", 1, false, false, "X"⟩,
   ⟨"u11", 1, false, false, "X"⟩,
   ⟨"u12", 1, false, false, "X"⟩,
   ⟨"u13", 1, false, false, "X"⟩,
   ⟨"u14", 1, false, false, "X"⟩,
   ⟨"u15", 1, false, false, "X"⟩,
   ⟨"u16", 1, false, false, "X"⟩,
   ⟨"u17", 1, false, false, "X"⟩,
   ⟨"u18", 1, false, false, "X"⟩,
   ⟨"u19", 1, false, false, "X"⟩,
   ⟨"u20", 1, false, false, "X"⟩,
   ⟨"u21", 1, false, false, "X"⟩,
   ⟨"u22", 1, false, false, "X"⟩,
   ⟨"u23", 1, false, false, "X"⟩,
   ⟨"u24", 1, false, false, "X"⟩,
   ⟨"u25", 1, false, false, "X"⟩,
   ⟨"u26", 1, false, false, "X"⟩,
   ⟨"u27", 1, false, false, "X"⟩,
   ⟨"u28", 1, false, false, "X"⟩,
   ⟨"u29", 1, false, false, "X"⟩,
   ⟨"u30", 1, false, false, "X"⟩,
   ⟨"u31", 1, false, false, "X"⟩,
   ⟨"u32", 1, false, false, "X"⟩,
   ⟨"u33", 1, false, false, "X"⟩,
   ⟨"u34", 1, false, false, "X"⟩,
   ⟨"u35", 1, false, false, "X"⟩,
   ⟨"u36", 1, false, false, "X"⟩,
   ⟨"u37", 1, false, false, "X"⟩,
   ⟨"u38", 1, false, false, "X"⟩,
   ⟨"u39", 1, false, false, "X"⟩,
   ⟨"u40", 1, false, false, "X"⟩,
   ⟨"u41", 1, false, false, "X"⟩,
   ⟨"u42", 1, false, false, "X"⟩,
   ⟨"u43", 1, false, false, "X"⟩,
   ⟨"u44", 1, false, false, "X"⟩,
   ⟨"u45", 1, false, false, "X"⟩,
   ⟨"u46", 1, false, false, "X"⟩,
   ⟨"u47", 1, false, false, "X"⟩,
   ⟨"u48", 1, false, false, "X"⟩,
   ⟨"u49", 1, false, false, "X"⟩,
   ⟨"u50", 1, false, false, "X"⟩,
   ⟨"u51", 10000, false, false, "X"⟩,
   ⟨"u52", 10000, false, false, "X"⟩,
   ⟨"u53", 10000, false, false, "X"⟩,
   ⟨"u54", 10000, false, false, "X"⟩,
   ⟨"u55", 10000, false, false, "X"⟩,
   ⟨"u56", 10000, false, false, "X"⟩,
   ⟨"u57", 10000, false, false, "X"⟩,
   ⟨"u58", 10000, false, false, "X"⟩,
   ⟨"u59", 10000, false, false, "X"⟩,
   ⟨"u60", 10000, false, false, "X"⟩]

lemma bigUniverse_finalAlloc :
    finalAlloc bigUniverse = [⟨"Small_NoRail_NoSM_X", 50, 40⟩] := by
  have hpr : pythonRound ((40 : ℚ) * (50 : ℚ) / (50 : ℚ)) = 40 := by
    have h40 : ((40 : ℚ) * (50 : ℚ) / (50 : ℚ)) = 40 := by norm_num
    rw [h40]
    simp only [pythonRound]
    norm_num
  have h1 : stratumCounts bigUniverse = [("Small_NoRail_NoSM_X", 50)] := by decide
  have hsl : slotsLeft bigUniverse = 40 := by decide
  have hrl : (remainingPool bigUniverse).length = 50 := by decide
  have hpr40 : pythonRound (40 : ℚ) = 40 := by
    simp only [pythonRound]
    norm_num
  have hin : initAlloc (slotsLeft bigUniverse) (remainingPool bigUniverse).length
      (stratumCounts bigUniverse) = [⟨"Small_NoRail_NoSM_X", 50, 40⟩] := by
    rw [h1, hsl, hrl]
    simp only [initAlloc, List.length_cons, List.length_nil, List.map_cons, List.map_nil]
    norm_num [hpr40]
    decide
  unfold finalAlloc
  rw [hin, hsl]
  rfl

lemma bigUniverse_samplePop :
    samplePop (combined takeDraw (fun k => k) bigUniverse) = 50 := by
  unfold combined
  rw [bigUniverse_finalAlloc]
  decide

lemma bigUniverse_coverage :
    coverage (combined takeDraw (fun k => k) bigUniverse) (totalPop bigUniverse) <
      MIN_POPULATION_COVERAGE := by
  unfold coverage
  rw [bigUniverse_samplePop]
  have htp : totalPop bigUniverse = 100050 := by decide
  rw [htp]
  unfold MIN_POPULATION_COVERAGE
  norm_num

/-- Witness for C6 at the concrete 60-region universe. -/
theorem coverage_topup_check :
    afterTopUp takeDraw (fun k => k) bigUniverse =
      topUpLoop (totalPop bigUniverse) (combined takeDraw (fun k => k) bigUniverse)
        (neededList bigUniverse (combined takeDraw (fun k => k) bigUniverse)) ∧
    List.Sorted popGe (neededList bigUniverse (combined takeDraw (fun k => k) bigUniverse)) ∧
    ∃ k ≤ (neededList bigUniverse (combined takeDraw (fun k => k) bigUniverse)).length,
      afterTopUp takeDraw (fun k => k) bigUniverse =
        combined takeDraw (fun k => k) bigUniverse ++
        ((neededList bigUniverse (combined takeDraw (fun k => k) bigUniverse)).take k).map
          (fun r => ⟨r, "coverage_boost"⟩) ∧
      (∀ i < k, coverage (combined takeDraw (fun k => k) bigUniverse ++
          ((neededList bigUniverse (combined takeDraw (fun k => k) bigUniverse)).take i).map
            (fun r => ⟨r, "coverage_boost"⟩)) (totalPop bigUniverse) <
            MIN_POPULATION_COVERAGE ∧
          (combined takeDraw (fun k => k) bigUniverse).length + i < MAX_SAMPLE_SIZE) ∧
      (∀ i < k, coverage (combined takeDraw (fun k => k) bigUniverse ++
          ((neededList bigUniverse (combined takeDraw (fun k => k) bigUniverse)).take i).map
            (fun r => ⟨r, "coverage_boost"⟩)) (totalPop bigUniverse) <
        coverage (combined takeDraw (fun k => k) bigUniverse ++
          ((neededList bigUniverse (combined takeDraw (fun k => k) bigUniverse)).take (i+1)).map
            (fun r => ⟨r, "coverage_boost"⟩)) (totalPop bigUniverse)) ∧
      (MIN_POPULATION_COVERAGE ≤
          coverage (afterTopUp takeDraw (fun k => k) bigUniverse) (totalPop bigUniverse) ∨
        MAX_SAMPLE_SIZE ≤ (afterTopUp takeDraw (fun k => k) bigUniverse).length ∨
        k = (neededList bigUniverse (combined takeDraw (fun k => k) bigUniverse)).length) :=
  coverage_topup takeDraw (fun k => k) takeDraw_ok bigUniverse (by decide)
    (by decide) bigUniverse_coverage

/-! ## The canonical region resolver (metro_sampler/data_ntd.py)

String manipulation is embedded on `List Char` with structural recursion
(`String` wraps `List Char`), mirroring the Python string and regex
operations of `_build_uza_cbsa_map` and `_uza_to_cbsa`. -/

/-- Python whitespace (the `\s` characters occurring in this data). -/
def isWs (c : Char) : Bool := c == ' ' || c == '\t' || c == '\n' || c == '\r'

def trimL (s : List Char) : List Char := s.dropWhile isWs

def trimR (s : List Char) : List Char := (s.reverse.dropWhile isWs).reverse

/-- Python `str.strip()`. -/
def trimChars (s : List Char) : List Char := trimR (trimL s)

/-- Python `str.lower()` on ASCII letters. -/
def lcChar (c : Char) : Char :=
  if 'A' ≤ c ∧ c ≤ 'Z' then Char.ofNat (c.toNat + 32) else c

/-- Python `str.upper()` on ASCII letters. -/
def ucChar (c : Char) : Char :=
  if 'a' ≤ c ∧ c ≤ 'z' then Char.ofNat (c.toNat - 32) else c

def lowerChars (s : List Char) : List Char := s.map lcChar

def upperChars (s : List Char) : List Char := s.map ucChar

/-- Prepend a character to the first piece of a split result. -/
def consHead (c : Char) : List (List Char) → List (List Char)
  | [] => [[c]]
  | t :: ts => (c :: t) :: ts

/-- `re.split` on a class of single-character separators (hyphen and
slash, or a comma). -/
def splitChars (seps : List Char) : List Char → List (List Char)
  | [] => [[]]
  | c :: rest =>
    if c ∈ seps then [] :: splitChars seps rest
    else consHead c (splitChars seps rest)

/-- `re.split(r"--|/")`: scan left to right, splitting on `--` or `/`;
a single `-` is an ordinary character here. -/
def splitDD : List Char → List (List Char)
  | [] => [[]]
  | [c] => if c = '/' then [[], []] else [[c]]
  | c :: c2 :: rest =>
    if c = '/' then [] :: splitDD (c2 :: rest)
    else if c = '-' ∧ c2 = '-' then [] :: splitDD rest
    else consHead c (splitDD (c2 :: rest))

/-- Python `needle in hay` on strings. -/
def hasSubstr (needle hay : List Char) : Bool :=
  hay.tails.any (fun t => needle.isPrefixOf t)

def dropRightN (n : Nat) (s : List Char) : List Char := s.take (s.length - n)

/-- `re.sub(r"\s*Metro(politan)?\s*Area$", "", name)` (line 130): strip a
trailing `Metro Area` / `Metropolitan Area`, with the whitespace around
`Metro(politan)`, from the end of an MSA name. -/
def stripMetroArea (s : List Char) : List Char :=
  if ("Area".data).isSuffixOf s then
    let t := trimR (dropRightN 4 s)
    if ("Metropolitan".data).isSuffixOf t then trimR (dropRightN 12 t)
    else if ("Metro".data).isSuffixOf t then trimR (dropRightN 5 t)
    else s
  else s

/-- `parts[0].strip()` after splitting on the commas. -/
def cityPartOf (s : List Char) : List Char :=
  trimChars ((splitChars [','] s).headD [])

/-- `parts[1].strip() if len(parts) > 1 else ""`. -/
def statePartOf (s : List Char) : List Char :=
  if 1 < (splitChars [','] s).length then trimChars ((splitChars [','] s).getD 1 [])
  else []

/-- `_parse_msa` (lines 129–136): strip the Metro-Area suffix, split on
the commas, take the first piece as the city part and the second as the
state part, split the city part on single hyphens and slashes and
lowercase it, split the state part the same way and uppercase it. -/
def parseMsa (msaName : List Char) : List (List Char) × List (List Char) :=
  let clean := stripMetroArea msaName
  ((splitChars ['-', '/'] (cityPartOf clean)).map (fun c => lowerChars (trimChars c)),
   (splitChars ['-', '/'] (statePartOf clean)).map (fun st => upperChars (trimChars st)))

/-- The index built by `_build_uza_cbsa_map`: `city_state`, `city_only`
and the ambiguous-city set. -/
structure CityIndex where
  cityState : List ((List Char × List Char) × String)
  cityOnly : List (List Char × String)
  cityAmbig : List (List Char)
deriving Repr

/-- Dict lookup on an association list. -/
def alookup {κ β : Type} [DecidableEq κ] (k : κ) : List (κ × β) → Option β
  | [] => none
  | kv :: rest => if kv.1 = k then some kv.2 else alookup k rest

/-- Dict key removal (`del d[k]`). -/
def remKey {κ β : Type} [DecidableEq κ] (k : κ) (m : List (κ × β)) : List (κ × β) :=
  m.filter (fun kv => kv.1 ≠ k)

/-- Dict assignment (`d[k] = v`). -/
def aset {κ β : Type} [DecidableEq κ] (k : κ) (v : β) (m : List (κ × β)) : List (κ × β) :=
  (k, v) :: remKey k m

/-- `d.setdefault(k, v)`. -/
def setdefaultKV {κ β : Type} [DecidableEq κ] (m : List (κ × β)) (k : κ) (v : β) :
    List (κ × β) :=
  match alookup k m with
  | some _ => m
  | none => (k, v) :: m

/-- One city token of one census row (lines 147–156): `setdefault` every
(city, state) pair into `city_state`, then update the city-only table and
the ambiguous set. -/
def addCity (cbsa : String) (states : List (List Char)) (idx : CityIndex)
    (city : List Char) : CityIndex :=
  let cs := states.foldl (fun m st => setdefaultKV m (city, st) cbsa) idx.cityState
  if city ∈ idx.cityAmbig then { idx with cityState := cs }
  else
    match alookup city idx.cityOnly with
    | some prev =>
      if prev ≠ cbsa then
        { cityState := cs, cityAmbig := city :: idx.cityAmbig,
          cityOnly := remKey city idx.cityOnly }
      else { idx with cityState := cs, cityOnly := aset city cbsa idx.cityOnly }
    | none => { idx with cityState := cs, cityOnly := aset city cbsa idx.cityOnly }

/-- One census row (lines 144–156). -/
def buildRow (idx : CityIndex) (msaName : List Char) (cbsa : String) : CityIndex :=
  let pm := parseMsa msaName
  pm.1.foldl (addCity cbsa pm.2) idx

def emptyIndex : CityIndex := ⟨[], [], []⟩

/-- `_build_uza_cbsa_map` (lines 138–161) over the fetched census rows,
each a pair (msa_name, cbsa_code). -/
def buildUzaCbsaMap (rows : List (List Char × String)) : CityIndex :=
  rows.foldl (fun idx row => buildRow idx row.1 row.2) emptyIndex

/-- The parse inside `_uza_to_cbsa` (lines 179–183): cities split on `--`
or `/` only (not on single hyphens), states split on single hyphens and
slashes and filtered to the non-blank ones. -/
def parseUza (uzaName : List Char) : List (List Char) × List (List Char) :=
  ((splitDD (cityPartOf uzaName)).map (fun c => lowerChars (trimChars c)),
   (splitChars ['-', '/'] (statePartOf uzaName)).filterMap (fun st =>
     let t := trimChars st
     if t = [] then none else some (upperChars t)))

/-- The inner loop of the city+state probe: `idx["city_state"].get((city,
state))`, returning on the first truthy hit. -/
def probeStates (m : List ((List Char × List Char) × String)) (city : List Char) :
    List (List Char) → String
  | [] => ""
  | st :: sts =>
    match alookup (city, st) m with
    | some v => if v ≠ "" then v else probeStates m city sts
    | none => probeStates m city sts

/-- The outer loop of the city+state probe (lines 186–190). -/
def probePairs (m : List ((List Char × List Char) × String))
    (states : List (List Char)) : List (List Char) → String
  | [] => ""
  | c :: cs =>
    let r := probeStates m c states
    if r ≠ "" then r else probePairs m states cs

/-- The unambiguous-city fallback (lines 193–196). -/
def probeCityOnly (m : List (List Char × String)) : List (List Char) → String
  | [] => ""
  | c :: cs =>
    match alookup c m with
    | some v => if v ≠ "" then v else probeCityOnly m cs
    | none => probeCityOnly m cs

/-- `_uza_to_cbsa` (lines 167–198).  The source returns "" early when the
census fetch failed and the cached index is empty; here the index is
always built from the given rows. -/
def uzaToCbsa (rows : List (List Char × String)) (uzaName : List Char) : String :=
  if uzaName = [] then ""
  else if hasSubstr ("non-uza".data) (lowerChars uzaName) then ""
  else
    let idx := buildUzaCbsaMap rows
    let pu := parseUza uzaName
    let r := probePairs idx.cityState pu.2 pu.1
    if r ≠ "" then r else probeCityOnly idx.cityOnly pu.1

/-! ## Association-list lemmas -/

lemma alookup_remKey_self {κ β : Type} [DecidableEq κ] (k : κ) (m : List (κ × β)) :
    alookup k (remKey k m) = none := by
  induction m with
  | nil => rfl
  | cons kv rest ih =>
    by_cases h : kv.1 = k
    · rw [remKey, List.filter_cons_of_neg (by simp [h])]
      exact ih
    · rw [remKey, List.filter_cons_of_pos (by simp [h])]
      rw [alookup, if_neg h]
      exact ih

lemma alookup_remKey_ne {κ β : Type} [DecidableEq κ] {t k : κ} (m : List (κ × β))
    (h : t ≠ k) : alookup t (remKey k m) = alookup t m := by
  induction m with
  | nil => rfl
  | cons kv rest ih =>
    by_cases h1 : kv.1 = k
    · rw [remKey, List.filter_cons_of_neg (by simp [h1])]
      rw [alookup, if_neg (by rw [h1]; exact fun hc => h hc.symm)]
      exact ih
    · rw [remKey, List.filter_cons_of_pos (by simp [h1])]
      rw [alookup, alookup]
      split
      · rfl
      · exact ih

lemma alookup_aset_self {κ β : Type} [DecidableEq κ] (k : κ) (v : β) (m : List (κ × β)) :
    alookup k (aset k v m) = some v := by
  rw [aset, alookup, if_pos rfl]

lemma alookup_aset_ne {κ β : Type} [DecidableEq κ] {t k : κ} (v : β) (m : List (κ × β))
    (h : t ≠ k) : alookup t (aset k v m) = alookup t m := by
  rw [aset, alookup, if_neg (fun hc => h hc.symm)]
  exact alookup_remKey_ne m h

/-! ## Claim C9: the city-only / ambiguous tables -/

/-- City-token references of a row list: one (token, cbsa_code) pair per
city-token occurrence, in processing order. -/
def cityRefs (rows : List (List Char × String)) : List (List Char × String) :=
  rows.bind (fun row => (parseMsa row.1).1.map (fun c => (c, row.2)))

/-- The city-only / ambiguous part of `addCity` in isolation (lines
150–156). -/
def refStep (st : List (List Char × String) × List (List Char))
    (r : List Char × String) : List (List Char × String) × List (List Char) :=
  if r.1 ∈ st.2 then st
  else
    match alookup r.1 st.1 with
    | some prev =>
      if prev ≠ r.2 then (remKey r.1 st.1, r.1 :: st.2)
      else (aset r.1 r.2 st.1, st.2)
    | none => (aset r.1 r.2 st.1, st.2)

lemma addCity_refStep (cbsa : String) (states : List (List Char)) (idx : CityIndex)
    (city : List Char) :
    ((addCity cbsa states idx city).cityOnly, (addCity cbsa states idx city).cityAmbig) =
      refStep (idx.cityOnly, idx.cityAmbig) (city, cbsa) := by
  unfold addCity refStep
  by_cases h1 : city ∈ idx.cityAmbig
  · simp [h1]
  · simp only [h1, if_false]
    cases halk : alookup city idx.cityOnly with
    | none => simp [halk]
    | some prev =>
      by_cases h2 : prev = cbsa
      · simp [halk, h2]
      · simp [halk, h2]

lemma foldl_addCity_refs (cbsa : String) (states : List (List Char)) :
    ∀ (cities : List (List Char)) (idx : CityIndex),
      ((cities.foldl (addCity cbsa states) idx).cityOnly,
        (cities.foldl (addCity cbsa states) idx).cityAmbig) =
        (cities.map (fun c => (c, cbsa))).foldl refStep (idx.cityOnly, idx.cityAmbig) := by
  intro cities
  induction cities with
  | nil => intro idx; rfl
  | cons c cs ih =>
    intro idx
    simp only [List.foldl_cons, List.map_cons]
    rw [ih (addCity cbsa states idx c), addCity_refStep]

lemma buildRow_refs (idx : CityIndex) (name : List Char) (cbsa : String) :
    ((buildRow idx name cbsa).cityOnly, (buildRow idx name cbsa).cityAmbig) =
      ((parseMsa name).1.map (fun c => (c, cbsa))).foldl refStep
        (idx.cityOnly, idx.cityAmbig) := by
  unfold buildRow
  exact foldl_addCity_refs cbsa (parseMsa name).2 (parseMsa name).1 idx

lemma build_refs (rows : List (List Char × String)) :
    ((buildUzaCbsaMap rows).cityOnly, (buildUzaCbsaMap rows).cityAmbig) =
      (cityRefs rows).foldl refStep ([], []) := by
  suffices h : ∀ (l : List (List Char × String)) (idx : CityIndex),
      ((l.foldl (fun idx row => buildRow idx row.1 row.2) idx).cityOnly,
        (l.foldl (fun idx row => buildRow idx row.1 row.2) idx).cityAmbig) =
        (l.bind (fun row => (parseMsa row.1).1.map (fun c => (c, row.2)))).foldl refStep
          (idx.cityOnly, idx.cityAmbig) by
    exact h rows emptyIndex
  intro l
  induction l with
  | nil => intro idx; rfl
  | cons row rest ih =>
    intro idx
    simp only [List.foldl_cons, List.cons_bind, List.foldl_append]
    rw [ih, buildRow_refs]

/-- A token is referenced by a reference list. -/
def Referenced (t : List Char) (refs : List (List Char × String)) : Prop :=
  ∃ r ∈ refs, r.1 = t

/-- Invariant of the city-only / ambiguous state after processing `refs`. -/
def RefInv (refs : List (List Char × String))
    (st : List (List Char × String) × List (List Char)) : Prop :=
  (∀ t v, alookup t st.1 = some v → t ∉ st.2) ∧
  (∀ t, Referenced t refs ↔ ((alookup t st.1).isSome ∨ t ∈ st.2)) ∧
  (∀ t v, alookup t st.1 = some v → ∀ r ∈ refs, r.1 = t → r.2 = v)

lemma refInv_init : RefInv [] ([], []) := by
  refine ⟨?_, ?_, ?_⟩
  · intro t v h
    simp [alookup] at h
  · intro t
    simp [Referenced, alookup]
  · intro t v h
    simp [alookup] at h

lemma referenced_append {t : List Char} {refs : List (List Char × String)}
    {r : List Char × String} :
    Referenced t (refs ++ [r]) ↔ Referenced t refs ∨ r.1 = t := by
  unfold Referenced
  constructor
  · rintro ⟨x, hx, rfl⟩
    rcases List.mem_append.mp hx with h | h
    · exact Or.inl ⟨x, h, rfl⟩
    · rcases List.mem_singleton.mp h with rfl
      exact Or.inr rfl
  · rintro (⟨x, hx, rfl⟩ | h)
    · exact ⟨x, List.mem_append_left _ hx, rfl⟩
    · exact ⟨r, List.mem_append_right _ (List.mem_singleton_self r), h⟩

lemma refInv_step {refs : List (List Char × String)}
    {st : List (List Char × String) × List (List Char)}
    (hinv : RefInv refs st) (r : List Char × String) :
    RefInv (refs ++ [r]) (refStep st r) := by
  obtain ⟨hdisj, hcomp, hval⟩ := hinv
  unfold refStep
  by_cases h1 : r.1 ∈ st.2
  · rw [if_pos h1]
    refine ⟨hdisj, ?_, ?_⟩
    · intro t
      rw [referenced_append, hcomp]
      constructor
      · rintro (h | rfl)
        · exact h
        · exact Or.inr h1
      · exact Or.inl
    · intro t v h rr hrr hteq
      rcases List.mem_append.mp hrr with hm | hm
      · exact hval t v h rr hm hteq
      · rcases List.mem_singleton.mp hm with rfl
        exact absurd (hteq ▸ h1) (hdisj t v h)
  · rw [if_neg h1]
    cases halk : alookup r.1 st.1 with
    | some prev =>
      dsimp only
      by_cases h2 : prev = r.2
      · rw [if_neg (by simp [h2])]
        refine ⟨?_, ?_, ?_⟩
        · intro t v h
          by_cases ht : t = r.1
          · exact ht ▸ h1
          · rw [alookup_aset_ne _ _ ht] at h
            exact hdisj t v h
        · intro t
          rw [referenced_append, hcomp]
          by_cases ht : t = r.1
          · subst ht
            rw [alookup_aset_self]
            simp [halk]
          · rw [alookup_aset_ne _ _ ht]
            constructor
            · rintro (h | h)
              · exact h
              · exact absurd h.symm ht
            · exact Or.inl
        · intro t v h rr hrr hteq
          by_cases ht : t = r.1
          · subst ht
            rw [alookup_aset_self] at h
            rcases List.mem_append.mp hrr with hm | hm
            · have := hval r.1 prev halk rr hm hteq
              rw [this, h2]
              exact Option.some_injective _ h
            · rcases List.mem_singleton.mp hm with rfl
              exact Option.some_injective _ h
          · rw [alookup_aset_ne _ _ ht] at h
            rcases List.mem_append.mp hrr with hm | hm
            · exact hval t v h rr hm hteq
            · rcases List.mem_singleton.mp hm with rfl
              exact absurd hteq.symm ht
      · rw [if_pos (by simp [h2])]
        refine ⟨?_, ?_, ?_⟩
        · intro t v h
          by_cases ht : t = r.1
          · subst ht
            rw [alookup_remKey_self] at h
            exact absurd h (by simp)
          · rw [alookup_remKey_ne _ ht] at h
            intro hmem
            rcases List.mem_cons.mp hmem with hc | hc
            · exact ht hc
            · exact hdisj t v h hc
        · intro t
          rw [referenced_append, hcomp]
          by_cases ht : t = r.1
          · subst ht
            simp only [alookup_remKey_self, Option.isSome_none]
            constructor
            · intro _
              exact Or.inr (List.mem_cons_self ..)
            · intro _
              exact Or.inr (by trivial)
          · rw [alookup_remKey_ne _ ht]
            constructor
            · rintro (h | h)
              · rcases h with h | h
                · exact Or.inl h
                · exact Or.inr (List.mem_cons_of_mem _ h)
              · exact absurd h.symm ht
            · rintro (h | h)
              · exact Or.inl (Or.inl h)
              · rcases List.mem_cons.mp h with hc | hc
                · exact absurd hc ht
                · exact Or.inl (Or.inr hc)
        · intro t v h rr hrr hteq
          by_cases ht : t = r.1
          · subst ht
            rw [alookup_remKey_self] at h
            exact absurd h (by simp)
          · rw [alookup_remKey_ne _ ht] at h
            rcases List.mem_append.mp hrr with hm | hm
            · exact hval t v h rr hm hteq
            · rcases List.mem_singleton.mp hm with rfl
              exact absurd hteq.symm ht
    | none =>
      refine ⟨?_, ?_, ?_⟩
      · intro t v h
        by_cases ht : t = r.1
        · exact ht ▸ h1
        · rw [alookup_aset_ne _ _ ht] at h
          exact hdisj t v h
      · intro t
        rw [referenced_append, hcomp]
        by_cases ht : t = r.1
        · subst ht
          rw [alookup_aset_self]
          simp
        · rw [alookup_aset_ne _ _ ht]
          constructor
          · rintro (h | h)
            · exact h
            · exact absurd h.symm ht
          · exact Or.inl
      · intro t v h rr hrr hteq
        by_cases ht : t = r.1
        · subst ht
          have hnotref : ¬ Referenced r.1 refs := by
            rw [hcomp]
            simp [halk, h1]
          rw [alookup_aset_self] at h
          rcases List.mem_append.mp hrr with hm | hm
          · exact absurd ⟨rr, hm, hteq⟩ hnotref
          · rcases List.mem_singleton.mp hm with rfl
            exact Option.some_injective _ h
        · rw [alookup_aset_ne _ _ ht] at h
          rcases List.mem_append.mp hrr with hm | hm
          · exact hval t v h rr hm hteq
          · rcases List.mem_singleton.mp hm with rfl
            exact absurd hteq.symm ht

lemma refInv_fold :
    ∀ (l acc : List (List Char × String)) (st : List (List Char × String) × List (List Char)),
      RefInv acc st → RefInv (acc ++ l) (l.foldl refStep st) := by
  intro l
  induction l with
  | nil =>
    intro acc st h
    simpa using h
  | cons r rest ih =>
    intro acc st h
    have h1 := refInv_step h r
    have h2 := ih (acc ++ [r]) (refStep st r) h1
    rw [List.append_assoc] at h2
    simpa using h2

lemma refInv_build (rows : List (List Char × String)) :
    RefInv (cityRefs rows)
      ((buildUzaCbsaMap rows).cityOnly, (buildUzaCbsaMap rows).cityAmbig) := by
  rw [build_refs]
  have := refInv_fold (cityRefs rows) [] ([], []) refInv_init
  simpa using this

/-- C9.  After the canonical index is built from any universe: every city
token extracted from at least one region name is in exactly one of the
city-only (`city_only`) table and the ambiguous (`city_ambig`) set —
never both, never neither — and a token referenced with two distinct
region ids is always in the ambiguous set. -/
theorem city_token_xor (rows : List (List Char × String)) (t : List Char)
    (href : ∃ row ∈ rows, t ∈ (parseMsa row.1).1) :
    (((alookup t (buildUzaCbsaMap rows).cityOnly).isSome ∧
        t ∉ (buildUzaCbsaMap rows).cityAmbig) ∨
      ((alookup t (buildUzaCbsaMap rows).cityOnly) = none ∧
        t ∈ (buildUzaCbsaMap rows).cityAmbig)) ∧
    ((∃ r1 ∈ rows, ∃ r2 ∈ rows,
        t ∈ (parseMsa r1.1).1 ∧ t ∈ (parseMsa r2.1).1 ∧ r1.2 ≠ r2.2) →
      t ∈ (buildUzaCbsaMap rows).cityAmbig) := by
  obtain ⟨hdisj, hcomp, hval⟩ := refInv_build rows
  have hreft : Referenced t (cityRefs rows) := by
    obtain ⟨row, hrow, htok⟩ := href
    refine ⟨(t, row.2), ?_, rfl⟩
    unfold cityRefs
    rw [List.mem_bind]
    exact ⟨row, hrow, List.mem_map_of_mem _ htok⟩
  have hor := (hcomp t).mp hreft
  constructor
  · cases hcase : alookup t (buildUzaCbsaMap rows).cityOnly with
    | some v => exact Or.inl ⟨rfl, hdisj t v hcase⟩
    | none =>
      refine Or.inr ⟨rfl, ?_⟩
      rcases hor with h | h
      · rw [hcase] at h
        exact absurd h (by simp)
      · exact h
  · rintro ⟨r1, hr1, r2, hr2, ht1, ht2, hne⟩
    by_contra hnamb
    have hsome : (alookup t (buildUzaCbsaMap rows).cityOnly).isSome := by
      rcases hor with h | h
      · exact h
      · exact absurd h hnamb
    rcases Option.isSome_iff_exists.mp hsome with ⟨v, hv⟩
    have hm1 : ((t, r1.2) : List Char × String) ∈ cityRefs rows := by
      unfold cityRefs
      rw [List.mem_bind]
      exact ⟨r1, hr1, List.mem_map_of_mem _ ht1⟩
    have hm2 : ((t, r2.2) : List Char × String) ∈ cityRefs rows := by
      unfold cityRefs
      rw [List.mem_bind]
      exact ⟨r2, hr2, List.mem_map_of_mem _ ht2⟩
    have e1 := hval t v hv (t, r1.2) hm1 rfl
    have e2 := hval t v hv (t, r2.2) hm2 rfl
    exact hne (e1.trans e2.symm)

/-- Two census rows whose names share the city token "springfield" with
different region ids. -/
def springRows : List (List Char × String) :=
  [("Springfield, MA Metro Area".data, "44140"),
   ("Springfield, IL Metro Area".data, "44100")]

/-- Witness for C9 at a concrete pair of rows sharing a city token. -/
theorem city_token_xor_check :
    (((alookup ("springfield".data) (buildUzaCbsaMap springRows).cityOnly).isSome ∧
        ("springfield".data) ∉ (buildUzaCbsaMap springRows).cityAmbig) ∨
      ((alookup ("springfield".data) (buildUzaCbsaMap springRows).cityOnly) = none ∧
        ("springfield".data) ∈ (buildUzaCbsaMap springRows).cityAmbig)) ∧
    ((∃ r1 ∈ springRows, ∃ r2 ∈ springRows,
        ("springfield".data) ∈ (parseMsa r1.1).1 ∧
        ("springfield".data) ∈ (parseMsa r2.1).1 ∧ r1.2 ≠ r2.2) →
      ("springfield".data) ∈ (buildUzaCbsaMap springRows).cityAmbig) :=
  city_token_xor springRows ("springfield".data) (by decide)

/-! ## Claim C4: the resolver round trip -/

/-- One census row whose canonical name has a hyphenated city part. -/
def dfwRows : List (List Char × String) :=
  [("Dallas-Fort Worth-Arlington, TX Metro Area".data, "19100")]

/-- C4 counterexample: the index builder tokenizes city parts on single
hyphens, but `_uza_to_cbsa` splits only on `--` and `/`, so the exact
canonical name of a hyphenated region ("Dallas-Fort Worth-Arlington, TX",
cbsa 19100) resolves to "" (unresolved), not to the region's id — with or
without the raw "Metro Area" suffix. -/
theorem resolver_roundtrip_cex :
    uzaToCbsa dfwRows ("Dallas-Fort Worth-Arlington, TX".data) = "" ∧
    uzaToCbsa dfwRows ("Dallas-Fort Worth-Arlington, TX Metro Area".data) = "" ∧
    ("" : String) ≠ "19100" := by
  refine ⟨by decide, by decide, by decide⟩

/-- All (city-token, state-token) pairs a row writes into `city_state`. -/
def buildPairs (name : List Char) : List (List Char × List Char) :=
  (parseMsa name).1.bind (fun c => (parseMsa name).2.map (fun st => (c, st)))

/-- `setdefault` never changes an existing binding. -/
lemma alookup_setdefault_stable {κ β : Type} [DecidableEq κ] {m : List (κ × β)}
    {p : κ} {w : β} (k : κ) (v : β) (h : alookup p m = some w) :
    alookup p (setdefaultKV m k v) = some w := by
  unfold setdefaultKV
  cases halk : alookup k m with
  | some _ => exact h
  | none =>
    dsimp only
    rw [alookup]
    split
    · next heq =>
      rw [show k = p from heq] at halk
      rw [halk] at h
      exact absurd h (by simp)
    · exact h

/-- The pair `p` is either unset or set to `cbsa`. -/
def POk {κ : Type} [DecidableEq κ] (p : κ) (cbsa : String) (m : List (κ × String)) : Prop :=
  alookup p m = none ∨ alookup p m = some cbsa

lemma pok_setdefault {κ : Type} [DecidableEq κ] {p : κ} {cbsa : String}
    {m : List (κ × String)} (hP : POk p cbsa m) {k : κ} {v : String}
    (hv : k = p → v = cbsa) : POk p cbsa (setdefaultKV m k v) := by
  unfold setdefaultKV
  cases halk : alookup k m with
  | some _ => exact hP
  | none =>
    dsimp only
    by_cases hk : k = p
    · subst hk
      right
      rw [alookup, if_pos rfl, hv rfl]
    · unfold POk
      rw [alookup, if_neg hk]
      exact hP

lemma pok_statesFold {p : List Char × List Char} {cbsa v : String} {c : List Char}
    (states : List (List Char)) {m : List ((List Char × List Char) × String)}
    (hP : POk p cbsa m) (hv : ∀ st ∈ states, (c, st) = p → v = cbsa) :
    POk p cbsa (states.foldl (fun m st => setdefaultKV m (c, st) v) m) := by
  induction states generalizing m with
  | nil => exact hP
  | cons st sts ih =>
    rw [List.foldl_cons]
    exact ih (pok_setdefault hP (hv st (List.mem_cons_self ..)))
      (fun st' hst' => hv st' (List.mem_cons_of_mem _ hst'))

lemma statesFold_stable {p : List Char × List Char} {w v : String} {c : List Char}
    (states : List (List Char)) {m : List ((List Char × List Char) × String)}
    (h : alookup p m = some w) :
    alookup p (states.foldl (fun m st => setdefaultKV m (c, st) v) m) = some w := by
  induction states generalizing m with
  | nil => exact h
  | cons st sts ih =>
    rw [List.foldl_cons]
    exact ih (alookup_setdefault_stable _ _ h)

lemma statesFold_write {p : List Char × List Char} {cbsa : String} {c : List Char}
    (states : List (List Char)) {m : List ((List Char × List Char) × String)}
    (hP : POk p cbsa m) (hp1 : p.1 = c) (hmem : p.2 ∈ states) :
    alookup p (states.foldl (fun m st => setdefaultKV m (c, st) cbsa) m) = some cbsa := by
  induction states generalizing m with
  | nil => simp at hmem
  | cons st sts ih =>
    rw [List.foldl_cons]
    by_cases hst : st = p.2
    · have hcp : (c, st) = p := by
        rw [hst, ← hp1]
      have hset : alookup p (setdefaultKV m (c, st) cbsa) = some cbsa := by
        rcases hP with h | h
        · unfold setdefaultKV
          rw [hcp, h]
          dsimp only
          rw [alookup, if_pos rfl]
        · exact alookup_setdefault_stable _ _ h
      exact statesFold_stable sts hset
    · rcases List.mem_cons.mp hmem with h | h
      · exact absurd h.symm hst
      · exact ih (pok_setdefault hP (fun hcpeq => absurd (congrArg Prod.snd hcpeq) hst)) h

lemma addCity_cityState (cbsa : String) (states : List (List Char)) (idx : CityIndex)
    (c : List Char) :
    (addCity cbsa states idx c).cityState =
      states.foldl (fun m st => setdefaultKV m (c, st) cbsa) idx.cityState := by
  unfold addCity
  by_cases h1 : c ∈ idx.cityAmbig
  · simp [h1]
  · simp only [h1, if_false]
    cases halk : alookup c idx.cityOnly with
    | none => rfl
    | some prev =>
      dsimp only
      by_cases h2 : prev = cbsa
      · rw [if_neg (by simp [h2])]
      · rw [if_pos (by simp [h2])]

lemma buildRow_cityState (idx : CityIndex) (name : List Char) (cbsa : String) :
    (buildRow idx name cbsa).cityState =
      (parseMsa name).1.foldl (fun m c =>
        (parseMsa name).2.foldl (fun m st => setdefaultKV m (c, st) cbsa) m)
        idx.cityState := by
  unfold buildRow
  have hgen : ∀ (cities : List (List Char)) (idx : CityIndex),
      ((cities.foldl (addCity cbsa (parseMsa name).2) idx)).cityState =
        cities.foldl (fun m c =>
          (parseMsa name).2.foldl (fun m st => setdefaultKV m (c, st) cbsa) m)
          idx.cityState := by
    intro cities
    induction cities with
    | nil => intro idx; rfl
    | cons c cs ih =>
      intro idx
      rw [List.foldl_cons, List.foldl_cons, ih, addCity_cityState]
  exact hgen (parseMsa name).1 idx

lemma pok_citiesFold {p : List Char × List Char} {cbsa v : String}
    (cities states : List (List Char)) {m : List ((List Char × List Char) × String)}
    (hP : POk p cbsa m)
    (hv : ∀ c ∈ cities, ∀ st ∈ states, (c, st) = p → v = cbsa) :
    POk p cbsa (cities.foldl (fun m c =>
      states.foldl (fun m st => setdefaultKV m (c, st) v) m) m) := by
  induction cities generalizing m with
  | nil => exact hP
  | cons c cs ih =>
    rw [List.foldl_cons]
    exact ih (pok_statesFold states hP (fun st hst => hv c (List.mem_cons_self ..) st hst))
      (fun c' hc' st hst => hv c' (List.mem_cons_of_mem _ hc') st hst)

lemma citiesFold_stable {p : List Char × List Char} {w v : String}
    (cities states : List (List Char)) {m : List ((List Char × List Char) × String)}
    (h : alookup p m = some w) :
    alookup p (cities.foldl (fun m c =>
      states.foldl (fun m st => setdefaultKV m (c, st) v) m) m) = some w := by
  induction cities generalizing m with
  | nil => exact h
  | cons c cs ih =>
    rw [List.foldl_cons]
    exact ih (statesFold_stable states h)

lemma citiesFold_write {p : List Char × List Char} {cbsa : String}
    (cities states : List (List Char)) {m : List ((List Char × List Char) × String)}
    (hP : POk p cbsa m) (hc : p.1 ∈ cities) (hst : p.2 ∈ states) :
    alookup p (cities.foldl (fun m c =>
      states.foldl (fun m st => setdefaultKV m (c, st) cbsa) m) m) = some cbsa := by
  induction cities generalizing m with
  | nil => simp at hc
  | cons c cs ih =>
    rw [List.foldl_cons]
    by_cases hcc : c = p.1
    · have hw : alookup p (states.foldl (fun m st => setdefaultKV m (c, st) cbsa) m) =
          some cbsa := statesFold_write states hP hcc.symm hst
      exact citiesFold_stable cs states hw
    · rcases List.mem_cons.mp hc with h | h
      · exact absurd h.symm hcc
      · exact ih (pok_statesFold states hP
          (fun st _ hcpeq => absurd (congrArg Prod.fst hcpeq) hcc)) h

/-- Lookup of a pair `p` written only with value `cbsa`, after the whole
build: every row that writes `p` (a pair of `name`) writes `cbsa`, and the
row `(name, cbsa)` is present, so the `setdefault` chain leaves exactly
`cbsa` at `p`. -/
lemma build_lookup_pair (rows : List (List Char × String)) (name : List Char)
    (cbsa : String) (hmem : (name, cbsa) ∈ rows)
    (hfresh : ∀ row ∈ rows, ∀ q ∈ buildPairs row.1, q ∈ buildPairs name → row.2 = cbsa)
    (p : List Char × List Char) (hp : p ∈ buildPairs name) :
    alookup p (buildUzaCbsaMap rows).cityState = some cbsa := by
  have hp1 : p.1 ∈ (parseMsa name).1 := by
    unfold buildPairs at hp
    rcases List.mem_bind.mp hp with ⟨c, hc, hmap⟩
    rcases List.mem_map.mp hmap with ⟨st, _, rfl⟩
    exact hc
  have hp2 : p.2 ∈ (parseMsa name).2 := by
    unfold buildPairs at hp
    rcases List.mem_bind.mp hp with ⟨c, _, hmap⟩
    rcases List.mem_map.mp hmap with ⟨st, hst, rfl⟩
    exact hst
  have hgen : ∀ (l : List (List Char × String)) (idx : CityIndex),
      POk p cbsa idx.cityState →
      (∀ row ∈ l, ∀ q ∈ buildPairs row.1, q ∈ buildPairs name → row.2 = cbsa) →
      ((name, cbsa) ∈ l ∨ alookup p idx.cityState = some cbsa) →
      alookup p ((l.foldl (fun idx row => buildRow idx row.1 row.2) idx)).cityState =
        some cbsa := by
    intro l
    induction l with
    | nil =>
      intro idx _ _ hin
      rcases hin with h | h
      · simp at h
      · exact h
    | cons row rest ih =>
      intro idx hP hfr hin
      rw [List.foldl_cons]
      have hProw : POk p cbsa (buildRow idx row.1 row.2).cityState := by
        rw [buildRow_cityState]
        refine pok_citiesFold _ _ hP ?_
        intro c hc st hst hcpeq
        refine hfr row (List.mem_cons_self ..) (c, st) ?_ (hcpeq ▸ hp)
        unfold buildPairs
        rw [List.mem_bind]
        exact ⟨c, hc, List.mem_map_of_mem _ hst⟩
      rcases hin with hin | hsome
      · rcases List.mem_cons.mp hin with heq | hin'
        · have h1 : name = row.1 := congrArg Prod.fst heq
          have h2 : cbsa = row.2 := congrArg Prod.snd heq
          have hwr : alookup p (buildRow idx row.1 row.2).cityState = some cbsa := by
            rw [← h1, ← h2, buildRow_cityState]
            exact citiesFold_write _ _ hP hp1 hp2
          exact ih (buildRow idx row.1 row.2) hProw
            (fun r hr => hfr r (List.mem_cons_of_mem _ hr)) (Or.inr hwr)
        · exact ih (buildRow idx row.1 row.2) hProw
            (fun r hr => hfr r (List.mem_cons_of_mem _ hr)) (Or.inl hin')
      · have hwr : alookup p (buildRow idx row.1 row.2).cityState = some cbsa := by
          rw [buildRow_cityState]
          exact citiesFold_stable _ _ hsome
        exact ih (buildRow idx row.1 row.2) hProw
          (fun r hr => hfr r (List.mem_cons_of_mem _ hr)) (Or.inr hwr)
  exact hgen rows emptyIndex (Or.inl rfl) hfresh (Or.inl hmem)

/-! ## Tokenization agreement between the build and resolve sides -/

lemma splitChars_ne_nil (seps : List Char) (s : List Char) :
    splitChars seps s ≠ [] := by
  cases s with
  | nil => simp [splitChars]
  | cons c rest =>
    rw [splitChars]
    split
    · simp
    · cases h : splitChars seps rest with
      | nil => simp [consHead]
      | cons t ts => simp [consHead]

lemma splitDD_eq_splitChars {s : List Char} (h : '-' ∉ s) :
    splitDD s = splitChars ['-', '/'] s := by
  induction s with
  | nil => rfl
  | cons c rest ih =>
    have hc : c ≠ '-' := fun hcc => h (hcc ▸ List.mem_cons_self ..)
    have hrest : '-' ∉ rest := fun hm => h (List.mem_cons_of_mem _ hm)
    cases rest with
    | nil =>
      rw [splitDD, splitChars]
      by_cases hcs : c = '/'
      · rw [if_pos hcs, if_pos (by simp [hcs])]
        rfl
      · rw [if_neg hcs, if_neg (by simp [hc, hcs])]
        rfl
    | cons c2 rest2 =>
      rw [splitDD]
      by_cases hcs : c = '/'
      · rw [if_pos hcs, splitChars, if_pos (by simp [hcs]), ih hrest]
      · rw [if_neg hcs, if_neg (by simp [hc]), splitChars,
          if_neg (by simp [hc, hcs]), ih hrest]

lemma filterMap_trim_eq_map (tokens : List (List Char))
    (h : ∀ st ∈ tokens, trimChars st ≠ []) :
    tokens.filterMap (fun st =>
        let t := trimChars st
        if t = [] then none else some (upperChars t)) =
      tokens.map (fun st => upperChars (trimChars st)) := by
  induction tokens with
  | nil => rfl
  | cons st sts ih =>
    rw [List.filterMap_cons, List.map_cons]
    dsimp only
    rw [if_neg (h st (List.mem_cons_self ..))]
    rw [ih (fun st' hst' => h st' (List.mem_cons_of_mem _ hst'))]

/-- C4 (amended).  For a region `(name, cbsa)` of the universe used to
build the canonical index, resolving its exact canonical name (the
`Metro Area`-stripped `msa_name`) returns its non-empty id, provided: the
id is non-empty; the canonical name is non-empty, is not the non-UZA
sentinel, and its state part has at least one token, none of them blank;
the city part contains no single hyphen (the build side tokenizes city
parts on single hyphens but `_uza_to_cbsa` splits only on `--` and `/`,
see the counterexample); and no other row claims any of this row's
(city, state) pairs with a different id. -/
theorem resolver_roundtrip (rows : List (List Char × String))
    (name : List Char) (cbsa : String)
    (hmem : (name, cbsa) ∈ rows)
    (hcb : cbsa ≠ "")
    (hne : stripMetroArea name ≠ [])
    (hnu : hasSubstr ("non-uza".data) (lowerChars (stripMetroArea name)) = false)
    (hhy : '-' ∉ cityPartOf (stripMetroArea name))
    (hst1 : (parseMsa name).2 ≠ [])
    (hst2 : ∀ st ∈ splitChars ['-', '/'] (statePartOf (stripMetroArea name)),
      trimChars st ≠ [])
    (hfresh : ∀ row ∈ rows, ∀ q ∈ buildPairs row.1, q ∈ buildPairs name → row.2 = cbsa) :
    uzaToCbsa rows (stripMetroArea name) = cbsa ∧ cbsa ≠ "" := by
  refine ⟨?_, hcb⟩
  unfold uzaToCbsa
  rw [if_neg hne, if_neg (by rw [hnu]; simp)]
  have hcities : (parseUza (stripMetroArea name)).1 = (parseMsa name).1 := by
    unfold parseUza parseMsa
    rw [splitDD_eq_splitChars hhy]
  have hstates : (parseUza (stripMetroArea name)).2 = (parseMsa name).2 := by
    unfold parseUza parseMsa
    exact filterMap_trim_eq_map _ hst2
  obtain ⟨c0, cs, hcs⟩ : ∃ c0 cs, (parseMsa name).1 = c0 :: cs := by
    have hne1 : (parseMsa name).1 ≠ [] := by
      unfold parseMsa
      dsimp only
      intro hmapnil
      exact splitChars_ne_nil ['-', '/'] _ (List.map_eq_nil_iff.mp hmapnil)
    cases hx : (parseMsa name).1 with
    | nil => exact absurd hx hne1
    | cons a l => exact ⟨a, l, rfl⟩
  obtain ⟨st0, sts, hsts⟩ : ∃ st0 sts, (parseMsa name).2 = st0 :: sts := by
    cases hx : (parseMsa name).2 with
    | nil => exact absurd hx hst1
    | cons a l => exact ⟨a, l, rfl⟩
  have hpair : ((c0, st0) : List Char × List Char) ∈ buildPairs name := by
    unfold buildPairs
    rw [List.mem_bind]
    exact ⟨c0, hcs ▸ List.mem_cons_self .., hsts ▸
      List.mem_map_of_mem _ (List.mem_cons_self ..)⟩
  have hlook : alookup ((c0, st0) : List Char × List Char)
      (buildUzaCbsaMap rows).cityState = some cbsa :=
    build_lookup_pair rows name cbsa hmem hfresh (c0, st0) hpair
  dsimp only
  rw [hcities, hstates, hcs, hsts]
  have hprobe : probePairs (buildUzaCbsaMap rows).cityState (st0 :: sts) (c0 :: cs) =
      cbsa := by
    rw [probePairs]
    have hps : probeStates (buildUzaCbsaMap rows).cityState c0 (st0 :: sts) = cbsa := by
      rw [probeStates, hlook]
      dsimp only
      rw [if_pos hcb]
    rw [hps]
    rw [if_pos hcb]
  rw [hprobe]
  rw [if_pos hcb]

/-- One clean census row. -/
def pitRows : List (List Char × String) :=
  [("Pittsburgh, PA Metro Area".data, "38300")]

/-- Witness for the amended C4 at a concrete hyphen-free row. -/
theorem resolver_roundtrip_check :
    uzaToCbsa pitRows (stripMetroArea ("Pittsburgh, PA Metro Area".data)) = "38300" ∧
      ("38300" : String) ≠ "" :=
  resolver_roundtrip pitRows ("Pittsburgh, PA Metro Area".data) "38300"
    (by decide) (by decide) (by decide) (by decide) (by decide) (by decide)
    (by decide) (by decide)

end MetroSampler
